import Mathlib

set_option linter.unusedSectionVars false
set_option linter.unusedVariables false

/-! # Open-addressing hash map with backward-shift deletion

A shallow embedding of `include/hashmap.h` (class template `HashMap<K, V, H>`).

* `std::vector<Item>` is a `List (Item K V)`; `data_.size()` is its length.
* The hasher object is passed to every operation as a function `H : K → Nat`
  (the `size_t` it returns); the class never mutates it.
* Every index of the form `x & (data_.size() - 1)` is below `data_.size()` as
  soon as the array is non-empty, so those reads use `slot`, which returns a
  value-initialised item outside the array.  The one index the source does not
  mask, `pos` in `erase`, is bounds-checked explicitly: an access outside the
  array is undefined behaviour in C++ and is reported as `Fault.outOfRange`.
* `size_t` arithmetic that can wrap (`pos - elem_bucket + data_.size()` in
  `erase`, `elements_count * 2` in the size-hint constructor) is written modulo
  `2 ^ 64`.  Sums such as `bucket + i` or `2 * elements_count_` are bounded by
  twice the array length and are kept as plain naturals.
-/

/-- The enum `State` of the source. -/
inductive State where
  | EMPTY
  | BUSY
  deriving DecidableEq, Repr

/-- The struct `Item`: the pair `p` (fields `first`, `second`), the state and
the recorded probe distance. -/
structure Item (K V : Type) where
  first : K
  second : V
  state : State
  distance : Nat
  deriving DecidableEq, Repr

/-- The data members `elements_count_` and `data_` of `HashMap` (the member
`size_` is never read or written by the source). -/
structure HashMap (K V : Type) where
  elements_count_ : Nat
  data_ : List (Item K V)
  deriving DecidableEq, Repr

/-- What can go wrong in `erase`: an access outside the slot array, or the
step budget of the embedding running out. -/
inductive Fault where
  | outOfRange
  | fuel
  deriving DecidableEq, Repr

deriving instance DecidableEq for Except

/-- The word size of `size_t`. -/
def WORD : Nat := 2 ^ 64

/-- Function `std::bit_ceil` by repeated doubling: the first power of two, starting
from `p`, that is at least `x`. -/
def bit_ceil_from : Nat → Nat → Nat → Nat
  | 0, p, _ => p
  | fuel + 1, p, x => if x ≤ p then p else bit_ceil_from fuel (2 * p) x

/-- Function `std::bit_ceil(x)`: the smallest power of two that is at least `x`
(`1` for `x = 0`).  The C++ function is undefined when that power does not fit
a `size_t`, that is for `x` above `2 ^ 63`. -/
def bit_ceil (x : Nat) : Nat := bit_ceil_from x 1 x

namespace HashMap

variable {K V : Type} [DecidableEq K] [Inhabited K] [Inhabited V]

/-- A value-initialised `Item`, as produced by `data_.resize(n)`. -/
def fresh : Item K V := ⟨default, default, State.EMPTY, 0⟩

/-- The read `data_[i]`. -/
def slot (d : List (Item K V)) (i : Nat) : Item K V := d.getD i fresh

/-- Constructor `HashMap(H hasher = H())`: eight value-initialised slots. -/
def mk_default : HashMap K V := ⟨0, List.replicate 8 fresh⟩

/-- Constructor `HashMap(std::size_t elements_count, H hasher = H())`; the
product `elements_count * 2` is a `size_t` and wraps. -/
def mk_hint (elements_count : Nat) : HashMap K V :=
  ⟨0, List.replicate (bit_ceil (elements_count * 2 % WORD)) fresh⟩

/-- Method `size()`. -/
def size (m : HashMap K V) : Nat := m.elements_count_

/-- Method `empty()`. -/
def empty (m : HashMap K V) : Bool := m.size == 0

/-- Method `incr()`. -/
def incr (m : HashMap K V) : HashMap K V := ⟨m.elements_count_ + 1, m.data_⟩

/-- Method `decr()`; the count is at least one wherever the source calls it with a
BUSY slot in hand. -/
def decr (m : HashMap K V) : HashMap K V := ⟨m.elements_count_ - 1, m.data_⟩

/-- Method `occupied()`. -/
def occupied (m : HashMap K V) : Bool := decide (m.data_.length ≤ 2 * m.elements_count_)

/-- Method `clear()`. -/
def clear (m : HashMap K V) : HashMap K V :=
  ⟨0, m.data_.map (fun it => { it with state := State.EMPTY })⟩

/-- The first loop of `insert` (lines 40-49), run for `steps` more iterations
from counter `i`: `some ind` when slot `ind` is BUSY with an equal key and is
met before any EMPTY slot, `none` when the loop breaks or runs out. -/
def insert_lookup (data : List (Item K V)) (key : K) (bucket : Nat) : Nat → Nat → Option Nat
  | 0, _ => none
  | steps + 1, i =>
    let ind := (bucket + i) &&& (data.length - 1)
    if (slot data ind).state = State.EMPTY then none
    else if (slot data ind).state = State.BUSY ∧ (slot data ind).first = key then some ind
    else insert_lookup data key bucket steps (i + 1)

/-- The placement loop shared by `insert` (lines 52-61) and
`insert_without_resize` (lines 171-178): the first counter `i` whose slot
`(bucket + i) & (size - 1)` is not BUSY. -/
def probe_free (data : List (Item K V)) (bucket : Nat) : Nat → Nat → Option Nat
  | 0, _ => none
  | steps + 1, i =>
    if ¬ (slot data ((bucket + i) &&& (data.length - 1))).state = State.BUSY then some i
    else probe_free data bucket steps (i + 1)

/-- Method `insert_without_resize(key, value)`. -/
def insert_without_resize (H : K → Nat) (m : HashMap K V) (key : K) (value : V) : HashMap K V :=
  let bucket := H key &&& (m.data_.length - 1)
  match probe_free m.data_ bucket m.data_.length 0 with
  | some i =>
    incr ⟨m.elements_count_,
      m.data_.set ((bucket + i) &&& (m.data_.length - 1)) ⟨key, value, State.BUSY, i⟩⟩
  | none => m

/-- Method `resize()`: the old array is moved out, a value-initialised array of
`bit_ceil(old.size() * 2)` slots is cleared, and the BUSY items of the old
array are placed again in index order. -/
def resize (H : K → Nat) (m : HashMap K V) : HashMap K V :=
  let old := m.data_
  let start : HashMap K V :=
    clear ⟨m.elements_count_, List.replicate (bit_ceil (old.length * 2)) fresh⟩
  old.foldl
    (fun acc item =>
      if item.state = State.BUSY then insert_without_resize H acc item.first item.second
      else acc)
    start

/-- Method `insert(key, value)`.  The test `i == data_.size()` of line 63 sits inside
a loop guarded by `i < data_.size()`, so its branch never runs and is left
out. -/
def insert (H : K → Nat) (m : HashMap K V) (key : K) (value : V) : HashMap K V :=
  let bucket := H key &&& (m.data_.length - 1)
  match insert_lookup m.data_ key bucket m.data_.length 0 with
  | some ind =>
    ⟨m.elements_count_, m.data_.set ind { slot m.data_ ind with second := value }⟩
  | none =>
    match probe_free m.data_ bucket m.data_.length 0 with
    | some i =>
      let m1 : HashMap K V :=
        incr ⟨m.elements_count_,
          m.data_.set ((bucket + i) &&& (m.data_.length - 1)) ⟨key, value, State.BUSY, i⟩⟩
      if occupied m1 then resize H m1 else m1
    | none => m

/-- Method `insert(const std::pair<K, V> &elem)`. -/
def insert_pair (H : K → Nat) (m : HashMap K V) (elem : K × V) : HashMap K V :=
  insert H m elem.1 elem.2

/-- The range and initializer-list constructors: size the array from the
number of pairs, then insert each pair. -/
def mk_range (H : K → Nat) (l : List (K × V)) : HashMap K V :=
  l.foldl (insert_pair H) (mk_hint l.length)

/-- The call `std::swap(data_[j], data_[pos])` for two indices inside the array. -/
def swap_slots (data : List (Item K V)) (j pos : Nat) : List (Item K V) :=
  (data.set j (slot data pos)).set pos (slot data j)

/-- The backward-shift loop of `erase` (lines 86-104) with gap `pos` and
cursor `j`, run for at most `fuel` iterations. -/
def erase_shift (H : K → Nat) : Nat → List (Item K V) → Nat → Nat →
    Except Fault (List (Item K V))
  | 0, _, _, _ => Except.error Fault.fuel
  | fuel + 1, data, pos, j =>
    if (slot data j).state = State.EMPTY then Except.ok data
    else if (slot data j).state ≠ State.BUSY then
      erase_shift H fuel data pos ((j + 1) &&& (data.length - 1))
    else
      let elem_bucket := H (slot data j).first &&& (data.length - 1)
      if ((pos + WORD - elem_bucket) % WORD + data.length) % WORD &&& (data.length - 1)
          < (slot data j).distance then
        if pos < data.length then
          let swapped := swap_slots data j pos
          let moved := swapped.set pos
            { slot swapped pos with
              distance := (pos + data.length - elem_bucket) % WORD &&& (data.length - 1) }
          erase_shift H fuel moved j ((j + 1) &&& (data.length - 1))
        else Except.error Fault.outOfRange
      else Except.ok data

/-- The scan loop of `erase` (lines 76-107), run for `steps` more iterations
from counter `i`.  The backward-shift loop, which the source does not bound,
is given `size * size + 1` iterations. -/
def erase_scan (H : K → Nat) (m : HashMap K V) (key : K) (bucket : Nat) :
    Nat → Nat → Except Fault (Bool × HashMap K V)
  | 0, _ => Except.ok (false, m)
  | steps + 1, i =>
    let ind := (i + bucket) &&& (m.data_.length - 1)
    if (slot m.data_ ind).state = State.EMPTY then Except.ok (false, m)
    else if (slot m.data_ ind).first = key ∧ (slot m.data_ ind).state = State.BUSY then
      let m1 : HashMap K V :=
        decr ⟨m.elements_count_,
          m.data_.set ind { slot m.data_ ind with state := State.EMPTY }⟩
      let pos := i + bucket
      match erase_shift H (m1.data_.length * m1.data_.length + 1) m1.data_ pos
          ((pos + 1) &&& (m1.data_.length - 1)) with
      | Except.ok d => Except.ok (true, ⟨m1.elements_count_, d⟩)
      | Except.error e => Except.error e
    else erase_scan H m key bucket steps (i + 1)

/-- Method `erase(key)`. -/
def erase (H : K → Nat) (m : HashMap K V) (key : K) : Except Fault (Bool × HashMap K V) :=
  erase_scan H m key (H key &&& (m.data_.length - 1)) m.data_.length 0

/-- The scan loop shared by `operator[]` (lines 120-125, 127-132) and
`bucket` (lines 144-149): the first index `(i + bucket) & (size - 1)` whose
slot holds an equal key and is BUSY, over a whole turn of the array. -/
def scan_key (data : List (Item K V)) (key : K) (bucket : Nat) : Nat → Nat → Option Nat
  | 0, _ => none
  | steps + 1, i =>
    let ind := (i + bucket) &&& (data.length - 1)
    if (slot data ind).first = key ∧ (slot data ind).state = State.BUSY then some ind
    else scan_key data key bucket steps (i + 1)

/-- Method `operator[](key)`: the table after the call and the index of the slot
whose `p.second` the returned reference designates; `none` is the
`std::runtime_error` of line 133.  The second scan reuses the `bucket`
computed before the insertion. -/
def operator_index (H : K → Nat) (m : HashMap K V) (key : K) : Option (HashMap K V × Nat) :=
  let bucket := H key &&& (m.data_.length - 1)
  match scan_key m.data_ key bucket m.data_.length 0 with
  | some ind => some (m, ind)
  | none =>
    let m1 := insert H m key default
    match scan_key m1.data_ key bucket m1.data_.length 0 with
    | some ind => some (m1, ind)
    | none => none

/-- A write `ref = value` through the reference returned by `operator[]`. -/
def assign_ref (m : HashMap K V) (ind : Nat) (value : V) : HashMap K V :=
  ⟨m.elements_count_, m.data_.set ind { slot m.data_ ind with second := value }⟩

/-- The statement `m[key] = value`. -/
def index_assign (H : K → Nat) (m : HashMap K V) (key : K) (value : V) : Option (HashMap K V) :=
  match operator_index H m key with
  | some (m1, ind) => some (assign_ref m1 ind value)
  | none => none

/-- Method `bucket(key)`, an `ssize_t`. -/
def bucket (H : K → Nat) (m : HashMap K V) (key : K) : Int :=
  match scan_key m.data_ key (H key &&& (m.data_.length - 1)) m.data_.length 0 with
  | some ind => (ind : Int)
  | none => -1

/-- Method `iterator::next()`: skip slots that are not BUSY, for at most `fuel`
steps. -/
def next (data : List (Item K V)) : Nat → Nat → Nat
  | 0, pos => pos
  | fuel + 1, pos =>
    if pos < data.length ∧ (slot data pos).state ≠ State.BUSY then next data fuel (pos + 1)
    else pos

/-- The constructor `iterator(data, pos)`; an iterator over a given array is
its position `pos_`. -/
def iterator (data : List (Item K V)) (pos : Nat) : Nat :=
  next data (data.length - pos) pos

/-- Method `iterator::operator++()`. -/
def iterator_incr (data : List (Item K V)) (pos : Nat) : Nat :=
  next data (data.length - (pos + 1)) (pos + 1)

/-- Method `iterator::operator*()`. -/
def deref (data : List (Item K V)) (pos : Nat) : K × V :=
  ((slot data pos).first, (slot data pos).second)

/-- Method `begin()`. -/
def begin_ (m : HashMap K V) : Nat := iterator m.data_ 0

/-- Method `end()`. -/
def end_ (m : HashMap K V) : Nat := iterator m.data_ m.data_.length

/-- The loop of `find` (lines 230-234): `i` runs from the home bucket up to
the end of the array. -/
def find_loop (data : List (Item K V)) (key : K) : Nat → Nat → Option Nat
  | 0, _ => none
  | steps + 1, i =>
    if (slot data i).first = key ∧ (slot data i).state = State.BUSY then some i
    else find_loop data key steps (i + 1)

/-- Method `find(key)`. -/
def find (H : K → Nat) (m : HashMap K V) (key : K) : Nat :=
  let bucket := H key &&& (m.data_.length - 1)
  match find_loop m.data_ key (m.data_.length - bucket) bucket with
  | some i => iterator m.data_ i
  | none => end_ m

/-- The traversal `for (it = begin(); it != end(); ++it)` collecting `*it`,
from position `pos`, for at most `fuel` elements. -/
def iterate_from (m : HashMap K V) : Nat → Nat → List (K × V)
  | 0, _ => []
  | fuel + 1, pos =>
    if pos = end_ m then []
    else deref m.data_ pos :: iterate_from m fuel (iterator_incr m.data_ pos)

/-- All pairs a range-for over the map visits, in order. -/
def iterate (m : HashMap K V) : List (K × V) :=
  iterate_from m (m.data_.length + 1) (begin_ m)

/-! ## Vocabulary of the specification -/

/-- The slot is Occupied. -/
def busy (it : Item K V) : Bool := decide (it.state = State.BUSY)

/-- Number of Occupied slots of an array. -/
def busy_count (d : List (Item K V)) : Nat := d.countP busy

/-- The keys held in Occupied slots, in slot order. -/
def keys (d : List (Item K V)) : List K := (d.filter busy).map (fun it => it.first)

/-- The (key, value) pairs held in Occupied slots, in slot order. -/
def entries (d : List (Item K V)) : List (K × V) :=
  (d.filter busy).map (fun it => (it.first, it.second))

/-- The home bucket `hasher_(key) & (data_.size() - 1)`. -/
def home (H : K → Nat) (d : List (Item K V)) (key : K) : Nat := H key &&& (d.length - 1)

/-- Tables obtained from a constructor by public operations: `insert`,
`operator[]` (read, or write through the returned reference), `erase` and
`clear`.  The range constructors are a size hint followed by inserts. -/
inductive Reachable (H : K → Nat) : HashMap K V → Prop
  | default : Reachable H mk_default
  | hint (n : Nat) : Reachable H (mk_hint n)
  | insert {m : HashMap K V} (k : K) (v : V) : Reachable H m → Reachable H (insert H m k v)
  | index {m m1 : HashMap K V} {ind : Nat} (k : K) :
      Reachable H m → operator_index H m k = some (m1, ind) → Reachable H m1
  | assign {m m1 : HashMap K V} {ind : Nat} (k : K) (v : V) :
      Reachable H m → operator_index H m k = some (m1, ind) → Reachable H (assign_ref m1 ind v)
  | erase {m m1 : HashMap K V} {b : Bool} (k : K) :
      Reachable H m → erase H m k = Except.ok (b, m1) → Reachable H m1
  | clear {m : HashMap K V} : Reachable H m → Reachable H (clear m)

/-- Tables obtained from the table `m0` by public operations. -/
inductive ReachableFrom (H : K → Nat) (m0 : HashMap K V) : HashMap K V → Prop
  | start : ReachableFrom H m0 m0
  | insert {m : HashMap K V} (k : K) (v : V) :
      ReachableFrom H m0 m → ReachableFrom H m0 (insert H m k v)
  | index {m m1 : HashMap K V} {ind : Nat} (k : K) :
      ReachableFrom H m0 m → operator_index H m k = some (m1, ind) → ReachableFrom H m0 m1
  | assign {m m1 : HashMap K V} {ind : Nat} (k : K) (v : V) :
      ReachableFrom H m0 m → operator_index H m k = some (m1, ind) →
      ReachableFrom H m0 (assign_ref m1 ind v)
  | erase {m m1 : HashMap K V} {b : Bool} (k : K) :
      ReachableFrom H m0 m → erase H m k = Except.ok (b, m1) → ReachableFrom H m0 m1
  | clear {m : HashMap K V} : ReachableFrom H m0 m → ReachableFrom H m0 (clear m)

/-- Reachability of every stored key: no slot that is not Occupied lies on the
wrapping probe path from the home bucket of a stored key to its slot. -/
def reach_inv (H : K → Nat) (m : HashMap K V) : Prop :=
  ∀ s, s < m.data_.length → (slot m.data_ s).state = State.BUSY →
    ∀ t, t < (s + m.data_.length - home H m.data_ (slot m.data_ s).first) % m.data_.length →
      (slot m.data_ ((home H m.data_ (slot m.data_ s).first + t) &&& (m.data_.length - 1))).state
        = State.BUSY

/-- At most one Occupied slot holds a given key. -/
def uniq_inv (m : HashMap K V) : Prop :=
  ∀ i, i < m.data_.length → ∀ j, j < m.data_.length →
    (slot m.data_ i).state = State.BUSY → (slot m.data_ j).state = State.BUSY →
    (slot m.data_ i).first = (slot m.data_ j).first → i = j

instance (H : K → Nat) (m : HashMap K V) : Decidable (reach_inv H m) := by
  unfold reach_inv; infer_instance

instance (m : HashMap K V) : Decidable (uniq_inv m) := by
  unfold uniq_inv; infer_instance

/-- The structural invariants every reachable table satisfies: the capacity is
a power of two, the cached count is the number of Occupied slots, and at least
one slot is not Occupied. -/
def Inv0 (m : HashMap K V) : Prop :=
  (∃ n, m.data_.length = 2 ^ n) ∧ m.elements_count_ = busy_count m.data_ ∧
    busy_count m.data_ < m.data_.length

/-- Every Occupied slot `s` records the number of probe steps from the home
bucket of its key to `s`, and every slot before it on that path is Occupied. -/
def placed (H : K → Nat) (d : List (Item K V)) : Prop :=
  ∀ s, s < d.length → (slot d s).state = State.BUSY →
    (slot d s).distance < d.length ∧
    (home H d (slot d s).first + (slot d s).distance) &&& (d.length - 1) = s ∧
    ∀ t, t < (slot d s).distance →
      (slot d ((home H d (slot d s).first + t) &&& (d.length - 1))).state = State.BUSY

/-- The invariants of a table built by insertions only. -/
def WF (H : K → Nat) (m : HashMap K V) : Prop :=
  Inv0 m ∧ placed H m.data_ ∧ (keys m.data_).Nodup

/-- The distance invariant: every Occupied slot `s` records the number of probe
steps from the home bucket of its key to `s`, `(s - home) mod capacity`. -/
def dist_inv (H : K → Nat) (m : HashMap K V) : Prop :=
  ∀ s, s < m.data_.length → (slot m.data_ s).state = State.BUSY →
    (slot m.data_ s).distance
      = (s + m.data_.length - home H m.data_ (slot m.data_ s).first) % m.data_.length

instance (H : K → Nat) (m : HashMap K V) : Decidable (dist_inv H m) := by
  unfold dist_inv; infer_instance

/-! ## A reference map and lockstep runs -/

/-- One call of the stress test: `insert({key, value})` or `erase(key)`. -/
inductive Op (K V : Type) where
  | insert (key : K) (value : V)
  | erase (key : K)

/-- The reference map: a finite map given by its lookup function. -/
def RefMap (K V : Type) : Type := K → Option V

/-- The empty reference map. -/
def RefMap.empty : RefMap K V := fun _ => none

/-- Reference `insert`: the key becomes a member (an existing member keeps its
value, as in `std::unordered_map::insert`). -/
def RefMap.insert (r : RefMap K V) (key : K) (value : V) : RefMap K V :=
  fun x => if x = key then (match r key with | some w => some w | none => some value) else r x

/-- Reference `erase`: whether the key was a member, and the map without it. -/
def RefMap.erase (r : RefMap K V) (key : K) : Bool × RefMap K V :=
  ((r key).isSome, fun x => if x = key then none else r x)

/-- The answers of the `erase` calls of a run on the reference map. -/
def run_ref : List (Op K V) → RefMap K V → List Bool
  | [], _ => []
  | Op.insert k v :: ops, r => run_ref ops (r.insert k v)
  | Op.erase k :: ops, r => (r.erase k).1 :: run_ref ops (r.erase k).2

/-- The answers of the `erase` calls of a run on the hash map. -/
def run_map (H : K → Nat) : List (Op K V) → HashMap K V → Except Fault (List Bool)
  | [], _ => Except.ok []
  | Op.insert k v :: ops, m => run_map H ops (HashMap.insert H m k v)
  | Op.erase k :: ops, m =>
    match HashMap.erase H m k with
    | Except.ok (b, m1) =>
      (match run_map H ops m1 with
       | Except.ok bs => Except.ok (b :: bs)
       | Except.error e => Except.error e)
    | Except.error e => Except.error e

/-! ## Concrete tables used below -/

/-- The hasher `h(x) = x`. -/
def id_hash : Nat → Nat := fun x => x

/-- Default table, then `insert(7, 10)`, `insert(15, 11)`: key 15 has home
bucket 7 and is placed in slot 0, past the end of the array. -/
def ex_wrap : HashMap Nat Nat := insert id_hash (insert id_hash mk_default 7 10) 15 11

/-- Default table, then `insert(0, 10)`, `insert(1, 11)`, `insert(8, 12)`:
key 8 has home bucket 0 and sits in slot 2. -/
def ex_three : HashMap Nat Nat :=
  insert id_hash (insert id_hash (insert id_hash mk_default 0 10) 1 11) 8 12

/-- The table `ex_three` after `erase(0)`. -/
def ex_gap : HashMap Nat Nat :=
  ⟨2, [⟨0, 10, State.EMPTY, 0⟩, ⟨1, 11, State.BUSY, 0⟩, ⟨8, 12, State.BUSY, 2⟩,
       fresh, fresh, fresh, fresh, fresh]⟩

/-- The constant hasher `h(x) = 7`. -/
def seven_hash : Nat → Nat := fun _ => 7

/-- Default table with the constant hasher 7, then `insert(1, 10)`,
`insert(2, 11)`, `insert(3, 12)`: key 1 is in slot 7, and the probe sequence
wraps to put key 2 in slot 0 and key 3 in slot 1. -/
def ex_wrap3 : HashMap Nat Nat :=
  insert seven_hash (insert seven_hash (insert seven_hash mk_default 1 10) 2 11) 3 12

/-- Three keys with home bucket 0 under `h(x) = x`: default table, then
`insert(8, 1)`, `insert(16, 2)`, `insert(24, 3)`, in slots 0, 1, 2. -/
def ex_chain : HashMap Nat Nat :=
  insert id_hash (insert id_hash (insert id_hash mk_default 8 1) 16 2) 24 3

/-! ## The test `backshift` of `tests/test.cpp` -/

/-- The hasher `h(x) = x mod 1000` of the test. -/
def h1000 : Nat → Nat := fun x => x % 1000

/-- A loop `insert(k, v); bucket(k)` over a list of pairs: the values of
`bucket(k)` observed right after each insertion, and the final table. -/
def insert_trace (H : K → Nat) : List (K × V) → HashMap K V → List Int × HashMap K V
  | [], m => ([], m)
  | (k, v) :: l, m =>
    let m1 := insert H m k v
    let r := insert_trace H l m1
    (bucket H m1 k :: r.1, r.2)

/-- The pairs `(i, 100 - i)` for `i = 1, ..., 100`. -/
def backshift_pairs : List (Nat × Nat) := (List.range' 1 100).map (fun i => (i, 100 - i))

/-- The table of the test after its first loop: size hint 1000, then
`insert(i, 100 - i)` for `i = 1, ..., 100`. -/
def backshift_100 : HashMap Nat Nat := (insert_trace h1000 backshift_pairs (mk_hint 1000)).2

/-- The table of the test after its second loop, which stores the keys
`1090, ..., 1100` with value 1 (the test writes them through `operator[]`,
which inserts the key and assigns through the reference). -/
def backshift_111 : HashMap Nat Nat :=
  ((List.range' 90 11).map (fun i => (i + 1000, 1))).foldl (insert_pair h1000) backshift_100

/-- The call `erase(50)` of the test, on the table after the second loop. -/
def backshift_erase_50 : Except Fault (Bool × HashMap Nat Nat) := erase h1000 backshift_111 50

/-- The call `erase(1091)` of the test, which follows `erase(50)`. -/
def backshift_erase_1091 : Except Fault (Bool × HashMap Nat Nat) :=
  match backshift_erase_50 with
  | Except.ok (_, m) => erase h1000 m 1091
  | Except.error e => Except.error e

end HashMap

/-! # Theorems -/

namespace HashMap

variable {K V : Type} [DecidableEq K] [Inhabited K] [Inhabited V]

/-! ### Reading and writing slots -/

theorem slot_of_lt {d : List (Item K V)} {i : Nat} (h : i < d.length) : slot d i = d[i] := by
  simp [slot, List.getD, List.getElem?_eq_getElem h]

theorem slot_of_ge {d : List (Item K V)} {i : Nat} (h : d.length ≤ i) : slot d i = fresh := by
  simp [slot, List.getD, List.getElem?_eq_none h]

theorem slot_busy_lt {d : List (Item K V)} {i : Nat} (h : (slot d i).state = State.BUSY) :
    i < d.length := by
  by_contra hge
  rw [slot_of_ge (Nat.le_of_not_lt hge)] at h
  simp [fresh] at h

theorem slot_mem {d : List (Item K V)} {i : Nat} (h : i < d.length) : slot d i ∈ d := by
  rw [slot_of_lt h]; exact List.getElem_mem h

theorem slot_set_self {d : List (Item K V)} {i : Nat} (x : Item K V) (h : i < d.length) :
    slot (d.set i x) i = x := by
  simp [slot, List.getD, h]

theorem slot_set_other {d : List (Item K V)} {i j : Nat} (x : Item K V) (h : i ≠ j) :
    slot (d.set i x) j = slot d j := by
  simp [slot, List.getD, List.getElem?_set_ne h]

theorem busy_iff (it : Item K V) : busy it = true ↔ it.state = State.BUSY := by
  simp [busy]

theorem not_busy_iff (it : Item K V) : ¬ it.state = State.BUSY ↔ it.state = State.EMPTY := by
  cases h : it.state <;> simp

theorem mem_keys_iff {d : List (Item K V)} {k : K} :
    k ∈ keys d ↔ ∃ i, i < d.length ∧ (slot d i).state = State.BUSY ∧ (slot d i).first = k := by
  unfold keys
  simp only [List.mem_map, List.mem_filter, busy_iff]
  constructor
  · rintro ⟨it, ⟨hmem, hb⟩, hk⟩
    obtain ⟨i, hi, rfl⟩ := List.getElem_of_mem hmem
    exact ⟨i, hi, by rw [slot_of_lt hi]; exact hb, by rw [slot_of_lt hi]; exact hk⟩
  · rintro ⟨i, hi, hb, hk⟩
    exact ⟨slot d i, ⟨slot_mem hi, hb⟩, hk⟩

theorem mem_keys_of_slot {d : List (Item K V)} {k : K} {i : Nat}
    (hb : (slot d i).state = State.BUSY) (hk : (slot d i).first = k) : k ∈ keys d :=
  mem_keys_iff.2 ⟨i, slot_busy_lt hb, hb, hk⟩

/-- The scan of `erase` changes nothing and answers `false` when no Occupied
slot holds the key. -/
theorem erase_scan_absent (H : K → Nat) (m : HashMap K V) (key : K) (bucket : Nat)
    (habs : key ∉ keys m.data_) :
    ∀ steps i, erase_scan H m key bucket steps i = Except.ok (false, m) := by
  intro steps
  induction steps with
  | zero => intro i; rfl
  | succ n ih =>
    intro i
    unfold erase_scan
    simp only
    split
    · rfl
    · split
      · rename_i hK
        exact absurd (mem_keys_of_slot hK.2 hK.1) habs
      · exact ih (i + 1)

/-- C3: for every table and every key that no Occupied slot holds, `erase`
answers `false` and returns the table unchanged (slots, count and capacity). -/
theorem erase_absent_noop (H : K → Nat) (m : HashMap K V) (key : K)
    (habs : ∀ i, i < m.data_.length → (slot m.data_ i).state = State.BUSY →
      (slot m.data_ i).first ≠ key) :
    erase H m key = Except.ok (false, m) := by
  apply erase_scan_absent
  intro hmem
  obtain ⟨i, hi, hb, hk⟩ := mem_keys_iff.1 hmem
  exact habs i hi hb hk

/-- Witness for C3 on the table `ex_gap` and the absent key 5. -/
theorem erase_absent_noop_witness :
    (∀ i, i < ex_gap.data_.length → (slot ex_gap.data_ i).state = State.BUSY →
      (slot ex_gap.data_ i).first ≠ 5) ∧
    erase id_hash ex_gap 5 = Except.ok (false, ex_gap) :=
  ⟨by decide, erase_absent_noop id_hash ex_gap 5 (by decide)⟩

/-! ### Masking by `size - 1` -/
theorem mask_lt {n : Nat} (x : Nat) (h : 0 < n) : x &&& (n - 1) < n := by
  have := @Nat.and_le_right x (n - 1)
  omega

theorem mask_eq_mod {len n : Nat} (hp : len = 2 ^ n) (x : Nat) : x &&& (len - 1) = x % len := by
  subst hp; exact Nat.and_pow_two_sub_one_eq_mod x n

theorem cover {len : Nat} (hpos : 0 < len) (b j : Nat) (hj : j < len) :
    ∃ t, t < len ∧ (b + t) % len = j := by
  refine ⟨(j + len - b % len) % len, Nat.mod_lt _ hpos, ?_⟩
  have hb : b % len < len := Nat.mod_lt _ hpos
  rw [Nat.add_mod_mod, ← Nat.mod_add_mod]
  have : b % len + (j + len - b % len) = j + len := by omega
  rw [this, Nat.add_mod_right, Nat.mod_eq_of_lt hj]

/-! ### Iteration -/

theorem entries_length (d : List (Item K V)) : (entries d).length = busy_count d := by
  simp [entries, busy_count, List.countP_eq_length_filter]

theorem keys_length (d : List (Item K V)) : (keys d).length = busy_count d := by
  simp [keys, busy_count, List.countP_eq_length_filter]

theorem keys_eq_entries (d : List (Item K V)) : keys d = (entries d).map Prod.fst := by
  simp [keys, entries, List.map_map, Function.comp_def]

theorem entries_drop_busy {d : List (Item K V)} {pos : Nat}
    (hb : (slot d pos).state = State.BUSY) :
    entries (d.drop pos) = deref d pos :: entries (d.drop (pos + 1)) := by
  have hlt := slot_busy_lt hb
  rw [List.drop_eq_getElem_cons hlt]
  rw [slot_of_lt hlt] at hb
  simp only [entries, deref, slot_of_lt hlt, List.filter_cons, busy, hb, decide_True, if_true,
    List.map_cons]

theorem entries_drop_skip {d : List (Item K V)} {pos : Nat} (hlt : pos < d.length)
    (hb : (slot d pos).state ≠ State.BUSY) :
    entries (d.drop pos) = entries (d.drop (pos + 1)) := by
  rw [List.drop_eq_getElem_cons hlt]
  rw [slot_of_lt hlt] at hb
  simp only [entries, List.filter_cons, busy, hb, decide_False, Bool.false_eq_true, if_false]

theorem entries_drop_length (d : List (Item K V)) : entries (d.drop d.length) = [] := by
  simp [entries]

theorem next_spec (d : List (Item K V)) :
    ∀ fuel pos, d.length - pos ≤ fuel → pos ≤ d.length →
      pos ≤ next d fuel pos ∧ next d fuel pos ≤ d.length ∧
      (next d fuel pos < d.length → (slot d (next d fuel pos)).state = State.BUSY) ∧
      entries (d.drop pos) = entries (d.drop (next d fuel pos)) := by
  intro fuel
  induction fuel with
  | zero =>
    intro pos h1 h2
    have : pos = d.length := by omega
    simp [next, this]
  | succ n ih =>
    intro pos h1 h2
    unfold next
    split
    · rename_i hc
      obtain ⟨a, b, c, e⟩ := ih (pos + 1) (by omega) (by omega)
      refine ⟨by omega, b, c, ?_⟩
      rw [entries_drop_skip hc.1 hc.2]; exact e
    · rename_i hc
      refine ⟨Nat.le_refl _, h2, ?_, rfl⟩
      intro hlt
      by_contra hnb
      exact hc ⟨hlt, hnb⟩

theorem end_eq_length (m : HashMap K V) : end_ m = m.data_.length := by
  simp [end_, iterator, next]

theorem iterate_from_spec (m : HashMap K V) :
    ∀ fuel pos, pos ≤ m.data_.length →
      (pos < m.data_.length → (slot m.data_ pos).state = State.BUSY) →
      m.data_.length - pos < fuel →
      iterate_from m fuel pos = entries (m.data_.drop pos) := by
  intro fuel
  induction fuel with
  | zero => intro pos h1 h2 h3; omega
  | succ n ih =>
    intro pos h1 h2 h3
    unfold iterate_from
    rw [end_eq_length]
    split
    · rename_i he
      rw [he, entries_drop_length]
    · rename_i he
      have hlt : pos < m.data_.length := by omega
      obtain ⟨a, b, c, e⟩ := next_spec m.data_ (m.data_.length - (pos + 1)) (pos + 1)
        (Nat.le_refl _) (by omega)
      rw [entries_drop_busy (h2 hlt), e]
      congr 1
      exact ih _ b c (by unfold iterator_incr; omega)

theorem iterate_eq_entries (m : HashMap K V) : iterate m = entries m.data_ := by
  obtain ⟨a, b, c, e⟩ := next_spec m.data_ (m.data_.length - 0) 0 (Nat.le_refl _) (Nat.zero_le _)
  unfold iterate begin_ iterator
  rw [iterate_from_spec m _ _ b c (by omega), ← e]
  simp

theorem begin_eq_end_of_no_busy (m : HashMap K V) (h : busy_count m.data_ = 0) :
    begin_ m = end_ m := by
  obtain ⟨a, b, c, e⟩ := next_spec m.data_ (m.data_.length - 0) 0 (Nat.le_refl _) (Nat.zero_le _)
  rw [end_eq_length]
  unfold begin_ iterator
  by_contra hne
  have hlt : next m.data_ (m.data_.length - 0) 0 < m.data_.length := by omega
  have h1 := entries_drop_busy (c hlt)
  have h2 : (entries m.data_).length = 0 := by rw [entries_length]; exact h
  simp only [List.drop_zero] at e
  rw [e, h1] at h2
  simp at h2

theorem incr_begin_eq_end_of_one_busy (m : HashMap K V) (h : busy_count m.data_ = 1) :
    begin_ m < m.data_.length ∧ iterator_incr m.data_ (begin_ m) = end_ m := by
  obtain ⟨a, b, c, e⟩ := next_spec m.data_ (m.data_.length - 0) 0 (Nat.le_refl _) (Nat.zero_le _)
  have h2 : (entries m.data_).length = 1 := by rw [entries_length]; exact h
  simp only [List.drop_zero] at e
  have hlt : begin_ m < m.data_.length := by
    unfold begin_ iterator
    by_contra hge
    have : next m.data_ (m.data_.length - 0) 0 = m.data_.length := by omega
    rw [e, this, entries_drop_length] at h2
    simp at h2
  refine ⟨hlt, ?_⟩
  have hb : (slot m.data_ (begin_ m)).state = State.BUSY := c hlt
  obtain ⟨a2, b2, c2, e2⟩ := next_spec m.data_ (m.data_.length - (begin_ m + 1)) (begin_ m + 1)
    (Nat.le_refl _) (by omega)
  rw [end_eq_length]
  unfold iterator_incr
  by_contra hne
  have hlt2 : next m.data_ (m.data_.length - (begin_ m + 1)) (begin_ m + 1) < m.data_.length := by
    omega
  have h3 := entries_drop_busy (c2 hlt2)
  have h4 : entries m.data_ = entries (m.data_.drop (begin_ m)) := e
  rw [h4, entries_drop_busy hb, e2, h3] at h2
  simp at h2

/-! ### Counting Occupied slots, and the probe loop -/

theorem busy_count_set {d : List (Item K V)} {i : Nat} (x : Item K V) (h : i < d.length) :
    busy_count (d.set i x) + (if busy (slot d i) then 1 else 0)
      = busy_count d + (if busy x then 1 else 0) := by
  unfold busy_count
  rw [List.countP_set busy d i x h, slot_of_lt h]
  have := List.boole_getElem_le_countP busy d i h
  omega

theorem filter_set_perm_new {d : List (Item K V)} {i : Nat} (x : Item K V) (h : i < d.length)
    (hold : busy (slot d i) = false) (hnew : busy x = true) :
    List.Perm ((d.set i x).filter busy) (x :: d.filter busy) := by
  induction d generalizing i with
  | nil => simp at h
  | cons a l ih =>
    cases i with
    | zero =>
      have ha : busy a = false := by simpa [slot] using hold
      simp [List.filter_cons, ha, hnew]
    | succ i =>
      have hl : i < l.length := by simpa using h
      have hold2 : busy (slot l i) = false := by simpa [slot] using hold
      have := ih hl hold2
      simp only [List.set_cons_succ, List.filter_cons]
      split
      · exact (List.Perm.cons a this).trans (List.Perm.swap x a _)
      · exact this

theorem entries_set_perm_new {d : List (Item K V)} {i : Nat} (x : Item K V) (h : i < d.length)
    (hold : (slot d i).state ≠ State.BUSY) (hnew : x.state = State.BUSY) :
    List.Perm (entries (d.set i x)) ((x.first, x.second) :: entries d) := by
  have := filter_set_perm_new x h (by simpa [busy] using hold) (by simpa [busy] using hnew)
  exact this.map _

theorem keys_set_perm_new {d : List (Item K V)} {i : Nat} (x : Item K V) (h : i < d.length)
    (hold : (slot d i).state ≠ State.BUSY) (hnew : x.state = State.BUSY) :
    List.Perm (keys (d.set i x)) (x.first :: keys d) := by
  have := filter_set_perm_new x h (by simpa [busy] using hold) (by simpa [busy] using hnew)
  exact this.map _

theorem slot_cons_succ (a : Item K V) (l : List (Item K V)) (i : Nat) :
    slot (a :: l) (i + 1) = slot l i := by
  simp [slot]

theorem slot_cons_zero (a : Item K V) (l : List (Item K V)) : slot (a :: l) 0 = a := by
  simp [slot]

/-- Overwriting a slot with an item that agrees under a projection leaves the
projected array unchanged. -/
theorem map_set_same {α : Type} (f : Item K V → α) (d : List (Item K V)) (i : Nat)
    (x : Item K V) (hx : f x = f (slot d i)) : (d.set i x).map f = d.map f := by
  induction d generalizing i with
  | nil => simp
  | cons a l ih =>
    cases i with
    | zero => simpa [slot_cons_zero] using hx
    | succ i =>
      rw [slot_cons_succ] at hx
      simp [ih i hx]

theorem set_slot_self (d : List (Item K V)) (i : Nat) : d.set i (slot d i) = d := by
  have := map_set_same (fun it => it) d i (slot d i) rfl
  simpa using this

theorem busy_def : (busy : Item K V → Bool) = fun it => decide (it.state = State.BUSY) := rfl

theorem keys_eq_of_map (d e : List (Item K V))
    (h : d.map (fun it => (it.first, it.state)) = e.map (fun it => (it.first, it.state))) :
    keys d = keys e := by
  have hk : ∀ l : List (Item K V), keys l =
      ((l.map (fun it => (it.first, it.state))).filter
        (fun p => decide (p.2 = State.BUSY))).map Prod.fst := by
    intro l
    simp [keys, List.filter_map, List.map_map, Function.comp_def, busy_def]
  rw [hk, hk, h]

theorem busy_count_eq_of_map (d e : List (Item K V))
    (h : d.map (fun it => (it.first, it.state)) = e.map (fun it => (it.first, it.state))) :
    busy_count d = busy_count e := by
  have hk : ∀ l : List (Item K V), busy_count l =
      (l.map (fun it => (it.first, it.state))).countP (fun p => decide (p.2 = State.BUSY)) := by
    intro l
    simp [busy_count, List.countP_map, Function.comp_def, busy_def]
  rw [hk, hk, h]

theorem probe_free_some (d : List (Item K V)) (b : Nat) :
    ∀ steps i0 i, probe_free d b steps i0 = some i →
      i0 ≤ i ∧ i < i0 + steps ∧
      (slot d ((b + i) &&& (d.length - 1))).state ≠ State.BUSY ∧
      ∀ t, i0 ≤ t → t < i → (slot d ((b + t) &&& (d.length - 1))).state = State.BUSY := by
  intro steps
  induction steps with
  | zero => intro i0 i h; simp [probe_free] at h
  | succ n ih =>
    intro i0 i h
    unfold probe_free at h
    split at h
    · rename_i hc
      injection h with h
      subst h
      exact ⟨Nat.le_refl _, by omega, hc, fun t h1 h2 => by omega⟩
    · rename_i hc
      obtain ⟨a, b1, c, e⟩ := ih (i0 + 1) i h
      refine ⟨by omega, by omega, c, ?_⟩
      intro t h1 h2
      by_cases ht : t = i0
      · subst ht; exact not_not.1 hc
      · exact e t (by omega) h2

theorem probe_free_none (d : List (Item K V)) (b : Nat) :
    ∀ steps i0, probe_free d b steps i0 = none →
      ∀ t, i0 ≤ t → t < i0 + steps →
        (slot d ((b + t) &&& (d.length - 1))).state = State.BUSY := by
  intro steps
  induction steps with
  | zero => intro i0 h t h1 h2; omega
  | succ n ih =>
    intro i0 h t h1 h2
    unfold probe_free at h
    split at h
    · simp at h
    · rename_i hc
      by_cases ht : t = i0
      · subst ht; exact not_not.1 hc
      · exact ih (i0 + 1) h t (by omega) (by omega)

theorem exists_not_busy {d : List (Item K V)} (h : busy_count d < d.length) :
    ∃ j, j < d.length ∧ (slot d j).state ≠ State.BUSY := by
  by_contra hno
  have hall : ∀ a ∈ d, busy a = true := by
    intro a ha
    obtain ⟨i, hi, rfl⟩ := List.getElem_of_mem ha
    by_contra hb
    apply hno
    refine ⟨i, hi, ?_⟩
    rw [slot_of_lt hi]
    simpa [busy] using hb
  have := List.countP_eq_length.2 hall
  unfold busy_count at h
  omega

theorem probe_free_exists {d : List (Item K V)} {n : Nat} (hp : d.length = 2 ^ n)
    (hroom : busy_count d < d.length) (b : Nat) :
    ∃ i, probe_free d b d.length 0 = some i := by
  cases hpf : probe_free d b d.length 0 with
  | some i => exact ⟨i, rfl⟩
  | none =>
    exfalso
    obtain ⟨j, hj, hnb⟩ := exists_not_busy hroom
    obtain ⟨t, ht, hbt⟩ := cover (by omega : 0 < d.length) b j hj
    have := probe_free_none d b _ _ hpf t (Nat.zero_le _) (by omega)
    rw [mask_eq_mod hp, hbt] at this
    exact hnb this

/-! ### Capacities, fresh arrays and one placement -/

theorem bit_ceil_from_pow2 : ∀ fuel a x, ∃ n, bit_ceil_from fuel (2 ^ a) x = 2 ^ n := by
  intro fuel
  induction fuel with
  | zero => intro a x; exact ⟨a, rfl⟩
  | succ f ih =>
    intro a x
    unfold bit_ceil_from
    split
    · exact ⟨a, rfl⟩
    · have : 2 * 2 ^ a = 2 ^ (a + 1) := by rw [Nat.pow_succ]; omega
      rw [this]; exact ih (a + 1) x

theorem bit_ceil_pow2 (x : Nat) : ∃ n, bit_ceil x = 2 ^ n := by
  have := bit_ceil_from_pow2 x 0 x
  simpa [bit_ceil] using this

theorem bit_ceil_from_exact : ∀ fuel a b, a ≤ b → b - a ≤ fuel →
    bit_ceil_from fuel (2 ^ a) (2 ^ b) = 2 ^ b := by
  intro fuel
  induction fuel with
  | zero =>
    intro a b h1 h2
    have : a = b := by omega
    subst this; rfl
  | succ f ih =>
    intro a b h1 h2
    unfold bit_ceil_from
    split
    · rename_i hle
      have : b ≤ a := (Nat.pow_le_pow_iff_right (by omega)).1 hle
      have : a = b := by omega
      subst this; rfl
    · rename_i hle
      have hlt : a < b := by
        by_contra hge
        have : a = b := by omega
        subst this
        exact hle (Nat.le_refl _)
      have : 2 * 2 ^ a = 2 ^ (a + 1) := by rw [Nat.pow_succ]; omega
      rw [this]; exact ih (a + 1) b (by omega) (by omega)

theorem bit_ceil_double (n : Nat) : bit_ceil (2 ^ n * 2) = 2 ^ (n + 1) := by
  have h : 2 ^ n * 2 = 2 ^ (n + 1) := by rw [Nat.pow_succ]
  rw [h]
  unfold bit_ceil
  have := bit_ceil_from_exact (2 ^ (n + 1)) 0 (n + 1) (Nat.zero_le _)
    (by have := @Nat.lt_two_pow (n + 1); omega)
  simpa using this

theorem fresh_replicate_busy_count (L : Nat) :
    busy_count (List.replicate L (fresh : Item K V)) = 0 := by
  simp [busy_count, List.countP_replicate, busy, fresh]

theorem clear_replicate (c L : Nat) :
    clear (⟨c, List.replicate L fresh⟩ : HashMap K V) = ⟨0, List.replicate L fresh⟩ := by
  simp [clear, List.map_replicate, fresh]

theorem entries_replicate (L : Nat) : entries (List.replicate L (fresh : Item K V)) = [] := by
  simp [entries, List.filter_replicate, busy, fresh]

theorem slot_replicate (L i : Nat) : slot (List.replicate L (fresh : Item K V)) i = fresh := by
  by_cases h : i < L
  · rw [slot_of_lt (by simpa using h)]; simp
  · rw [slot_of_ge (by simpa using Nat.le_of_not_lt h)]

theorem placed_replicate (H : K → Nat) (L : Nat) :
    placed H (List.replicate L (fresh : Item K V)) := by
  intro s hs hb
  rw [slot_replicate] at hb
  simp [fresh] at hb

/-- What one placement does on an array with a power-of-two length and a slot
that is not Occupied. -/
theorem insert_without_resize_spec (H : K → Nat) (m : HashMap K V) (key : K) (value : V)
    {n : Nat} (hp : m.data_.length = 2 ^ n) (hroom : busy_count m.data_ < m.data_.length) :
    ∃ i, probe_free m.data_ (home H m.data_ key) m.data_.length 0 = some i ∧
      insert_without_resize H m key value =
        ⟨m.elements_count_ + 1,
          m.data_.set ((home H m.data_ key + i) &&& (m.data_.length - 1))
            ⟨key, value, State.BUSY, i⟩⟩ := by
  obtain ⟨i, hi⟩ := probe_free_exists hp hroom (home H m.data_ key)
  refine ⟨i, hi, ?_⟩
  unfold insert_without_resize
  simp only [home] at hi
  simp only [hi, incr, home]

/-- Writing a new Occupied item into the first free slot of its probe path. -/
theorem placed_set (H : K → Nat) (d : List (Item K V)) (key : K) (value : V) (i : Nat)
    (hpos : 0 < d.length)
    (hpl : placed H d)
    (hpf : probe_free d (home H d key) d.length 0 = some i) :
    placed H (d.set ((home H d key + i) &&& (d.length - 1)) ⟨key, value, State.BUSY, i⟩) := by
  obtain ⟨_, hi, hfree, hpath⟩ := probe_free_some d _ _ _ _ hpf
  have hind : (home H d key + i) &&& (d.length - 1) < d.length := mask_lt _ hpos
  have hhome : ∀ k x, home H (d.set ((home H d key + i) &&& (d.length - 1)) x) k = home H d k := by
    intro k x; simp [home]
  intro s hs hb
  rw [List.length_set] at hs
  simp only [List.length_set, hhome] at *
  by_cases hsi : (home H d key + i) &&& (d.length - 1) = s
  · subst hsi
    rw [slot_set_self _ hind]
    refine ⟨by simp only; omega, rfl, ?_⟩
    intro t ht
    simp only at ht
    by_cases ht2 : (home H d key + i) &&& (d.length - 1) = (home H d key + t) &&& (d.length - 1)
    · rw [← ht2, slot_set_self _ hind]
    · rw [slot_set_other _ ht2]
      exact hpath t (Nat.zero_le _) ht
  · rw [slot_set_other _ hsi] at hb ⊢
    obtain ⟨h1, h2, h3⟩ := hpl s hs hb
    refine ⟨h1, h2, ?_⟩
    intro t ht
    by_cases ht2 : (home H d key + i) &&& (d.length - 1)
        = (home H d (slot d s).first + t) &&& (d.length - 1)
    · rw [← ht2, slot_set_self _ hind]
    · rw [slot_set_other _ ht2]
      exact h3 t ht

/-! ### Growth -/

theorem busy_count_cons (a : Item K V) (l : List (Item K V)) :
    busy_count (a :: l) = busy_count l + (if a.state = State.BUSY then 1 else 0) := by
  simp [busy_count, List.countP_cons, busy]

theorem entries_cons_busy (a : Item K V) (l : List (Item K V)) (h : a.state = State.BUSY) :
    entries (a :: l) = (a.first, a.second) :: entries l := by
  simp [entries, List.filter_cons, busy, h]

theorem entries_cons_skip (a : Item K V) (l : List (Item K V)) (h : ¬ a.state = State.BUSY) :
    entries (a :: l) = entries l := by
  simp [entries, List.filter_cons, busy, h]

theorem busy_count_le_length (d : List (Item K V)) : busy_count d ≤ d.length := by
  unfold busy_count; exact List.countP_le_length _

/-- Effect of one placement on the bookkeeping. -/
theorem insert_without_resize_effect (H : K → Nat) (m : HashMap K V) (key : K) (value : V)
    {n : Nat} (hp : m.data_.length = 2 ^ n) (hroom : busy_count m.data_ < m.data_.length) :
    (insert_without_resize H m key value).data_.length = m.data_.length ∧
    (insert_without_resize H m key value).elements_count_ = m.elements_count_ + 1 ∧
    busy_count (insert_without_resize H m key value).data_ = busy_count m.data_ + 1 ∧
    (placed H m.data_ → placed H (insert_without_resize H m key value).data_) ∧
    List.Perm (entries (insert_without_resize H m key value).data_)
      ((key, value) :: entries m.data_) := by
  obtain ⟨i, hpf, heq⟩ := insert_without_resize_spec H m key value hp hroom
  obtain ⟨_, hi, hfree, hpath⟩ := probe_free_some m.data_ _ _ _ _ hpf
  have hpos : 0 < m.data_.length := by omega
  have hind : (home H m.data_ key + i) &&& (m.data_.length - 1) < m.data_.length :=
    mask_lt _ hpos
  rw [heq]
  refine ⟨by simp, rfl, ?_, ?_, ?_⟩
  · have := busy_count_set (⟨key, value, State.BUSY, i⟩ : Item K V) hind
    have h1 : busy (slot m.data_ ((home H m.data_ key + i) &&& (m.data_.length - 1))) = false := by
      simpa [busy] using hfree
    simp only [h1] at this
    simp only [busy] at this
    simpa using this
  · intro hpl
    exact placed_set H m.data_ key value i hpos hpl hpf
  · exact entries_set_perm_new _ hind hfree rfl

theorem resize_fold_spec (H : K → Nat) {n : Nat} :
    ∀ (l : List (Item K V)) (acc : HashMap K V),
      acc.data_.length = 2 ^ n → acc.elements_count_ = busy_count acc.data_ →
      busy_count acc.data_ + busy_count l < 2 ^ n → placed H acc.data_ →
      (l.foldl (fun acc item =>
          if item.state = State.BUSY then insert_without_resize H acc item.first item.second
          else acc) acc).data_.length = 2 ^ n ∧
      (l.foldl (fun acc item =>
          if item.state = State.BUSY then insert_without_resize H acc item.first item.second
          else acc) acc).elements_count_ =
        busy_count (l.foldl (fun acc item =>
          if item.state = State.BUSY then insert_without_resize H acc item.first item.second
          else acc) acc).data_ ∧
      placed H (l.foldl (fun acc item =>
          if item.state = State.BUSY then insert_without_resize H acc item.first item.second
          else acc) acc).data_ ∧
      List.Perm (entries (l.foldl (fun acc item =>
          if item.state = State.BUSY then insert_without_resize H acc item.first item.second
          else acc) acc).data_) (entries l ++ entries acc.data_) := by
  intro l
  induction l with
  | nil => intro acc h1 h2 h3 h4; exact ⟨h1, h2, h4, by simp [entries]⟩
  | cons a l ih =>
    intro acc h1 h2 h3 h4
    rw [List.foldl_cons]
    rw [busy_count_cons] at h3
    by_cases hb : a.state = State.BUSY
    · simp only [hb, if_true] at h3 ⊢
      obtain ⟨e1, e2, e3, e4, e5⟩ :=
        insert_without_resize_effect H acc a.first a.second h1 (by omega)
      obtain ⟨r1, r2, r3, r4⟩ := ih (insert_without_resize H acc a.first a.second)
        (by rw [e1, h1]) (by rw [e2, e3, h2]) (by rw [e3]; omega) (e4 h4)
      refine ⟨r1, r2, r3, ?_⟩
      rw [entries_cons_busy a l hb]
      refine r4.trans ?_
      refine (List.Perm.append_left _ e5).trans ?_
      exact List.perm_middle
    · simp only [hb, if_false] at h3 ⊢
      obtain ⟨r1, r2, r3, r4⟩ := ih acc h1 h2 (by omega) h4
      refine ⟨r1, r2, r3, ?_⟩
      rw [entries_cons_skip a l hb]
      exact r4

/-- Growth by `resize` on a power-of-two array: the length doubles, the count is the
number of Occupied slots, every item sits on its probe path, and the stored
pairs are those of the old array. -/
theorem resize_spec (H : K → Nat) (m : HashMap K V) {n : Nat} (hp : m.data_.length = 2 ^ n) :
    (resize H m).data_.length = 2 ^ (n + 1) ∧
    (resize H m).elements_count_ = busy_count (resize H m).data_ ∧
    placed H (resize H m).data_ ∧
    List.Perm (entries (resize H m).data_) (entries m.data_) := by
  have hle := busy_count_le_length m.data_
  have hlt : 2 ^ n < 2 ^ (n + 1) := by rw [Nat.pow_succ]; have := @Nat.two_pow_pos n; omega
  unfold resize
  simp only [hp, bit_ceil_double, clear_replicate]
  have := resize_fold_spec H (n := n + 1) m.data_ ⟨0, List.replicate (2 ^ (n + 1)) fresh⟩
    (by simp) (by simp [fresh_replicate_busy_count])
    (by simp only [fresh_replicate_busy_count]; omega) (placed_replicate H _)
  simp only [entries_replicate, List.append_nil] at this
  exact this

/-! ### The two passes of insert -/

theorem state_cases (it : Item K V) : it.state = State.EMPTY ∨ it.state = State.BUSY := by
  cases h : it.state <;> simp

theorem insert_lookup_some (d : List (Item K V)) (key : K) (b : Nat) :
    ∀ steps i0 ind, insert_lookup d key b steps i0 = some ind →
      (slot d ind).state = State.BUSY ∧ (slot d ind).first = key := by
  intro steps
  induction steps with
  | zero => intro i0 ind h; simp [insert_lookup] at h
  | succ n ih =>
    intro i0 ind h
    unfold insert_lookup at h
    simp only at h
    split at h
    · simp at h
    · split at h
      · rename_i hc
        injection h with h
        subst h
        exact hc
      · exact ih _ _ h

theorem insert_lookup_none (d : List (Item K V)) (key : K) (b : Nat) :
    ∀ steps i0, insert_lookup d key b steps i0 = none →
      ∃ t, i0 ≤ t ∧ t ≤ i0 + steps ∧
        (t < i0 + steps → (slot d ((b + t) &&& (d.length - 1))).state = State.EMPTY) ∧
        ∀ u, i0 ≤ u → u < t →
          (slot d ((b + u) &&& (d.length - 1))).state = State.BUSY ∧
          (slot d ((b + u) &&& (d.length - 1))).first ≠ key := by
  intro steps
  induction steps with
  | zero =>
    intro i0 h
    exact ⟨i0, Nat.le_refl _, Nat.le_refl _, fun h => by omega, fun u h1 h2 => by omega⟩
  | succ n ih =>
    intro i0 h
    unfold insert_lookup at h
    simp only at h
    split at h
    · rename_i hE
      exact ⟨i0, Nat.le_refl _, by omega, fun _ => hE, fun u h1 h2 => by omega⟩
    · rename_i hE
      split at h
      · simp at h
      · rename_i hK
        obtain ⟨t, t1, t2, t3, t4⟩ := ih _ h
        refine ⟨t, by omega, by omega, fun hlt => t3 (by omega), ?_⟩
        intro u h1 h2
        by_cases hu : u = i0
        · subst hu
          have hB : (slot d ((b + u) &&& (d.length - 1))).state = State.BUSY := by
            rcases state_cases (slot d ((b + u) &&& (d.length - 1))) with h | h
            · exact absurd h hE
            · exact h
          exact ⟨hB, fun hk => hK ⟨hB, hk⟩⟩
        · exact t4 u (by omega) h2

/-- When every stored key sits on its probe path, a first pass of `insert` that
finds nothing means the key is not stored. -/
theorem insert_lookup_none_absent (H : K → Nat) (d : List (Item K V)) (key : K)
    (hpl : placed H d)
    (h : insert_lookup d key (home H d key) d.length 0 = none) : key ∉ keys d := by
  intro hmem
  obtain ⟨s, hs, hb, hk⟩ := mem_keys_iff.1 hmem
  obtain ⟨h1, h2, h3⟩ := hpl s hs hb
  rw [hk] at h2 h3
  obtain ⟨t, _, t2, t3, t4⟩ := insert_lookup_none d key _ _ _ h
  by_cases hlt : (slot d s).distance < t
  · have := (t4 _ (Nat.zero_le _) hlt).2
    rw [h2] at this
    exact this hk
  · have hE := t3 (by omega)
    by_cases heq : t = (slot d s).distance
    · rw [heq, h2, hb] at hE
      exact absurd hE (by decide)
    · have := h3 t (by omega)
      rw [this] at hE
      exact absurd hE (by decide)

/-! Overwriting the value of a slot. -/

theorem slot_set_second (d : List (Item K V)) (ind : Nat) (value : V) (j : Nat) :
    (slot (d.set ind { slot d ind with second := value }) j).first = (slot d j).first ∧
    (slot (d.set ind { slot d ind with second := value }) j).state = (slot d j).state ∧
    (slot (d.set ind { slot d ind with second := value }) j).distance = (slot d j).distance := by
  by_cases hij : ind = j
  · subst hij
    by_cases hlt : ind < d.length
    · rw [slot_set_self _ hlt]; exact ⟨rfl, rfl, rfl⟩
    · rw [List.set_eq_of_length_le (Nat.le_of_not_lt hlt)]; exact ⟨rfl, rfl, rfl⟩
  · rw [slot_set_other _ hij]; exact ⟨rfl, rfl, rfl⟩

theorem keys_set_second (d : List (Item K V)) (ind : Nat) (value : V) :
    keys (d.set ind { slot d ind with second := value }) = keys d :=
  keys_eq_of_map _ _ (map_set_same _ d ind _ rfl)

theorem busy_count_set_second (d : List (Item K V)) (ind : Nat) (value : V) :
    busy_count (d.set ind { slot d ind with second := value }) = busy_count d :=
  busy_count_eq_of_map _ _ (map_set_same _ d ind _ rfl)

theorem placed_set_second (H : K → Nat) (d : List (Item K V)) (ind : Nat) (value : V)
    (hpl : placed H d) : placed H (d.set ind { slot d ind with second := value }) := by
  intro s hs hb
  have hhome : ∀ k, home H (d.set ind { slot d ind with second := value }) k = home H d k := by
    intro k; simp [home]
  rw [List.length_set] at hs
  rw [(slot_set_second d ind value s).2.1] at hb
  obtain ⟨h1, h2, h3⟩ := hpl s hs hb
  simp only [List.length_set, hhome, (slot_set_second d ind value s).1,
    (slot_set_second d ind value s).2.2]
  refine ⟨h1, h2, ?_⟩
  intro t ht
  rw [(slot_set_second d ind value _).2.1]
  exact h3 t ht

theorem Inv0_set_second (m : HashMap K V) (ind : Nat) (value : V) (h : Inv0 m) :
    Inv0 (⟨m.elements_count_, m.data_.set ind { slot m.data_ ind with second := value }⟩ :
      HashMap K V) := by
  obtain ⟨h1, h2, h3⟩ := h
  refine ⟨?_, ?_, ?_⟩
  · simpa using h1
  · simpa [busy_count_set_second] using h2
  · simpa [busy_count_set_second] using h3

/-! The three ways `insert` can go. -/

theorem insert_of_lookup_some (H : K → Nat) (m : HashMap K V) (key : K) (value : V) (ind : Nat)
    (h : insert_lookup m.data_ key (home H m.data_ key) m.data_.length 0 = some ind) :
    insert H m key value =
      ⟨m.elements_count_, m.data_.set ind { slot m.data_ ind with second := value }⟩ := by
  unfold insert
  simp only [home] at h
  simp only [h]

theorem insert_of_lookup_none (H : K → Nat) (m : HashMap K V) (key : K) (value : V) (i : Nat)
    (h : insert_lookup m.data_ key (home H m.data_ key) m.data_.length 0 = none)
    (hpf : probe_free m.data_ (home H m.data_ key) m.data_.length 0 = some i) :
    insert H m key value =
      if occupied (⟨m.elements_count_ + 1,
          m.data_.set ((home H m.data_ key + i) &&& (m.data_.length - 1))
            ⟨key, value, State.BUSY, i⟩⟩ : HashMap K V)
      then resize H ⟨m.elements_count_ + 1,
          m.data_.set ((home H m.data_ key + i) &&& (m.data_.length - 1))
            ⟨key, value, State.BUSY, i⟩⟩
      else ⟨m.elements_count_ + 1,
          m.data_.set ((home H m.data_ key + i) &&& (m.data_.length - 1))
            ⟨key, value, State.BUSY, i⟩⟩ := by
  unfold insert
  simp only [home] at h hpf
  simp only [h, hpf, incr, home]

theorem insert_lookup_of_absent (H : K → Nat) (d : List (Item K V)) (key : K) (b : Nat)
    (habs : key ∉ keys d) (steps i0 : Nat) : insert_lookup d key b steps i0 = none := by
  cases h : insert_lookup d key b steps i0 with
  | none => rfl
  | some ind =>
    obtain ⟨hb, hk⟩ := insert_lookup_some d key b _ _ _ h
    exact absurd (mem_keys_of_slot hb hk) habs

theorem keys_perm_of_entries_perm {d e : List (Item K V)} {x : K × V}
    (h : List.Perm (entries d) (x :: entries e)) : List.Perm (keys d) (x.1 :: keys e) := by
  rw [keys_eq_entries, keys_eq_entries]
  simpa using h.map Prod.fst

/-- An insertion whose first pass finds nothing, on a table with the structural
invariants: the pair is added, the count grows by one, the invariants hold
again, also when the array is doubled. -/
theorem insert_new (H : K → Nat) (m : HashMap K V) (key : K) (value : V) (hinv : Inv0 m)
    (h : insert_lookup m.data_ key (home H m.data_ key) m.data_.length 0 = none) :
    Inv0 (insert H m key value) ∧
    (insert H m key value).elements_count_ = m.elements_count_ + 1 ∧
    List.Perm (entries (insert H m key value).data_) ((key, value) :: entries m.data_) ∧
    (placed H m.data_ → placed H (insert H m key value).data_) := by
  obtain ⟨⟨n, hp⟩, hc, hroom⟩ := hinv
  obtain ⟨i, hpf⟩ := probe_free_exists hp hroom (home H m.data_ key)
  obtain ⟨_, hi, hfree, hpath⟩ := probe_free_some m.data_ _ _ _ _ hpf
  have hpos : 0 < m.data_.length := by omega
  have hind : (home H m.data_ key + i) &&& (m.data_.length - 1) < m.data_.length :=
    mask_lt _ hpos
  rw [insert_of_lookup_none H m key value i h hpf]
  have hbc : busy_count (m.data_.set ((home H m.data_ key + i) &&& (m.data_.length - 1))
      (⟨key, value, State.BUSY, i⟩ : Item K V)) = busy_count m.data_ + 1 := by
    have := busy_count_set (⟨key, value, State.BUSY, i⟩ : Item K V) hind
    have h1 : busy (slot m.data_ ((home H m.data_ key + i) &&& (m.data_.length - 1))) = false := by
      simpa [busy] using hfree
    simp only [h1] at this
    simp only [busy] at this
    simpa using this
  have hent := entries_set_perm_new (⟨key, value, State.BUSY, i⟩ : Item K V) hind hfree rfl
  split
  · rename_i hocc
    obtain ⟨r1, r2, r3, r4⟩ := resize_spec H (⟨m.elements_count_ + 1,
      m.data_.set ((home H m.data_ key + i) &&& (m.data_.length - 1))
        ⟨key, value, State.BUSY, i⟩⟩ : HashMap K V) (n := n) (by simpa using hp)
    have hlen : busy_count (resize H (⟨m.elements_count_ + 1,
        m.data_.set ((home H m.data_ key + i) &&& (m.data_.length - 1))
          ⟨key, value, State.BUSY, i⟩⟩ : HashMap K V)).data_ = busy_count m.data_ + 1 := by
      rw [← entries_length, r4.length_eq, entries_length, hbc]
    refine ⟨⟨⟨n + 1, r1⟩, r2, ?_⟩, ?_, r4.trans hent, fun _ => r3⟩
    · rw [hlen, r1, Nat.pow_succ]; omega
    · rw [r2, hlen, hc]
  · rename_i hocc
    simp only [occupied, List.length_set, decide_eq_true_eq, not_le] at hocc
    refine ⟨⟨⟨n, by simpa using hp⟩, ?_, ?_⟩, rfl, hent, ?_⟩
    · simp only [hbc, hc]
    · simp only [hbc, List.length_set]; omega
    · intro hpl
      exact placed_set H m.data_ key value i hpos hpl hpf

/-! ### Structural invariants of reachable tables -/

theorem Inv0_insert (H : K → Nat) (m : HashMap K V) (key : K) (value : V) (hinv : Inv0 m) :
    Inv0 (insert H m key value) := by
  cases h : insert_lookup m.data_ key (home H m.data_ key) m.data_.length 0 with
  | some ind =>
    rw [insert_of_lookup_some H m key value ind h]
    exact Inv0_set_second m ind value hinv
  | none => exact (insert_new H m key value hinv h).1

theorem Inv0_fresh (c : Nat) {n : Nat} :
    Inv0 (⟨0, List.replicate (2 ^ n) fresh⟩ : HashMap K V) := by
  refine ⟨⟨n, by simp⟩, by simp [fresh_replicate_busy_count], ?_⟩
  simp only [fresh_replicate_busy_count, List.length_replicate]
  exact Nat.two_pow_pos n

theorem Inv0_mk_default : Inv0 (mk_default : HashMap K V) := by
  have := Inv0_fresh (K := K) (V := V) 0 (n := 3)
  simpa [mk_default] using this

theorem Inv0_mk_hint (c : Nat) : Inv0 (mk_hint c : HashMap K V) := by
  obtain ⟨n, hn⟩ := bit_ceil_pow2 (c * 2 % WORD)
  unfold mk_hint
  rw [hn]
  exact Inv0_fresh 0

theorem Inv0_clear (m : HashMap K V) (hinv : Inv0 m) : Inv0 (clear m) := by
  obtain ⟨⟨n, hp⟩, hc, hroom⟩ := hinv
  have hz : busy_count (m.data_.map (fun it => { it with state := State.EMPTY })) = 0 := by
    simp [busy_count, List.countP_map, Function.comp_def, busy_def, List.countP_eq_zero]
  refine ⟨⟨n, by simpa [clear] using hp⟩, ?_, ?_⟩
  · simp only [clear, hz]
  · simp only [clear, hz, List.length_map]; omega

theorem Inv0_assign_ref (m : HashMap K V) (ind : Nat) (value : V) (hinv : Inv0 m) :
    Inv0 (assign_ref m ind value) :=
  Inv0_set_second m ind value hinv

theorem swap_slots_length (d : List (Item K V)) (j pos : Nat) :
    (swap_slots d j pos).length = d.length := by
  simp [swap_slots]

theorem busy_count_swap (d : List (Item K V)) (j pos : Nat) (hj : j < d.length)
    (hpos : pos < d.length) : busy_count (swap_slots d j pos) = busy_count d := by
  unfold swap_slots
  have h1 := busy_count_set (slot d pos) hj
  have h2 := busy_count_set (d := d.set j (slot d pos)) (slot d j) (i := pos) (by simpa using hpos)
  have h3 : slot (d.set j (slot d pos)) pos = slot d pos := by
    by_cases hjp : j = pos
    · subst hjp; exact slot_set_self _ hj
    · exact slot_set_other _ hjp
  rw [h3] at h2
  omega

theorem erase_shift_keeps (H : K → Nat) :
    ∀ fuel (d : List (Item K V)) pos j d1, erase_shift H fuel d pos j = Except.ok d1 →
      d1.length = d.length ∧ busy_count d1 = busy_count d := by
  intro fuel
  induction fuel with
  | zero => intro d pos j d1 h; simp [erase_shift] at h
  | succ f ih =>
    intro d pos j d1 h
    unfold erase_shift at h
    simp only at h
    split at h
    · injection h with h; subst h; exact ⟨rfl, rfl⟩
    · split at h
      · exact ih _ _ _ _ h
      · rename_i hE hB
        have hB2 : (slot d j).state = State.BUSY := not_not.1 hB
        have hj := slot_busy_lt hB2
        split at h
        · split at h
          · rename_i hpos
            obtain ⟨r1, r2⟩ := ih _ _ _ _ h
            rw [r1, r2]
            refine ⟨by simp [swap_slots_length], ?_⟩
            rw [← busy_count_swap d j pos hj hpos]
            exact busy_count_eq_of_map _ _ (map_set_same _ _ _ _ rfl)
          · simp at h
        · injection h with h; subst h; exact ⟨rfl, rfl⟩

theorem erase_scan_Inv0 (H : K → Nat) (m : HashMap K V) (key : K) (bucket : Nat)
    (hinv : Inv0 m) :
    ∀ steps i b m1, erase_scan H m key bucket steps i = Except.ok (b, m1) → Inv0 m1 := by
  intro steps
  induction steps with
  | zero =>
    intro i b m1 h
    simp only [erase_scan, Except.ok.injEq, Prod.mk.injEq] at h
    rw [← h.2]; exact hinv
  | succ n ih =>
    intro i b m1 h
    unfold erase_scan at h
    simp only at h
    split at h
    · simp only [Except.ok.injEq, Prod.mk.injEq] at h
      rw [← h.2]; exact hinv
    · split at h
      · rename_i hK
        obtain ⟨⟨e, hp⟩, hc, hroom⟩ := hinv
        have hlt := slot_busy_lt hK.2
        split at h
        · rename_i d hs
          simp only [Except.ok.injEq, Prod.mk.injEq] at h
          rw [← h.2]
          obtain ⟨r1, r2⟩ := erase_shift_keeps H _ _ _ _ _ hs
          simp only [decr, List.length_set] at r1 r2
          have hb := busy_count_set
            ({ slot m.data_ ((i + bucket) &&& (m.data_.length - 1)) with state := State.EMPTY })
            hlt
          simp [busy, hK.2] at hb
          refine ⟨⟨e, by simp only [r1]; exact hp⟩, ?_, ?_⟩
          · simp only [decr, r2]; omega
          · simp only [r1, r2]; omega
        · simp at h
      · exact ih _ _ _ h

theorem Inv0_erase (H : K → Nat) (m m1 : HashMap K V) (key : K) (b : Bool) (hinv : Inv0 m)
    (h : erase H m key = Except.ok (b, m1)) : Inv0 m1 :=
  erase_scan_Inv0 H m key _ hinv _ _ _ _ h

theorem operator_index_table (H : K → Nat) (m m1 : HashMap K V) (key : K) (ind : Nat)
    (h : operator_index H m key = some (m1, ind)) :
    (m1 = m ∨ m1 = insert H m key default) := by
  unfold operator_index at h
  simp only at h
  split at h
  · simp only [Option.some.injEq, Prod.mk.injEq] at h
    exact Or.inl h.1.symm
  · split at h
    · simp only [Option.some.injEq, Prod.mk.injEq] at h
      exact Or.inr h.1.symm
    · simp at h

theorem Inv0_operator_index (H : K → Nat) (m m1 : HashMap K V) (key : K) (ind : Nat)
    (hinv : Inv0 m) (h : operator_index H m key = some (m1, ind)) : Inv0 m1 := by
  rcases operator_index_table H m m1 key ind h with h1 | h1
  · rw [h1]; exact hinv
  · rw [h1]; exact Inv0_insert H m key default hinv

/-- Every reachable table has a power-of-two capacity, a count equal to the
number of Occupied slots, and a slot that is not Occupied. -/
theorem Reachable_Inv0 (H : K → Nat) (m : HashMap K V) (hr : Reachable H m) : Inv0 m := by
  induction hr with
  | default => exact Inv0_mk_default
  | hint n => exact Inv0_mk_hint n
  | insert k v _ ih => exact Inv0_insert H _ k v ih
  | index k _ h ih => exact Inv0_operator_index H _ _ k _ ih h
  | assign k v _ h ih => exact Inv0_assign_ref _ _ v (Inv0_operator_index H _ _ k _ ih h)
  | erase k _ h ih => exact Inv0_erase H _ _ k _ ih h
  | clear _ ih => exact Inv0_clear _ ih

/-! ### Scanning for a key -/

theorem scan_key_some (d : List (Item K V)) (key : K) (b : Nat) :
    ∀ steps i0 ind, scan_key d key b steps i0 = some ind →
      (slot d ind).state = State.BUSY ∧ (slot d ind).first = key := by
  intro steps
  induction steps with
  | zero => intro i0 ind h; simp [scan_key] at h
  | succ n ih =>
    intro i0 ind h
    unfold scan_key at h
    simp only at h
    split at h
    · rename_i hc
      injection h with h
      subst h
      exact ⟨hc.2, hc.1⟩
    · exact ih _ _ h

theorem scan_key_none (d : List (Item K V)) (key : K) (b : Nat) :
    ∀ steps i0, scan_key d key b steps i0 = none →
      ∀ t, i0 ≤ t → t < i0 + steps →
        ¬ ((slot d ((t + b) &&& (d.length - 1))).first = key ∧
           (slot d ((t + b) &&& (d.length - 1))).state = State.BUSY) := by
  intro steps
  induction steps with
  | zero => intro i0 h t h1 h2; omega
  | succ n ih =>
    intro i0 h t h1 h2
    unfold scan_key at h
    simp only at h
    split at h
    · simp at h
    · rename_i hc
      by_cases ht : t = i0
      · subst ht; exact hc
      · exact ih _ h t (by omega) (by omega)

/-- A whole turn of the array from any start finds a stored key when the
capacity is a power of two. -/
theorem scan_key_complete (d : List (Item K V)) (key : K) (b : Nat) {n : Nat}
    (hp : d.length = 2 ^ n) (hmem : key ∈ keys d) :
    ∃ ind, scan_key d key b d.length 0 = some ind := by
  cases h : scan_key d key b d.length 0 with
  | some ind => exact ⟨ind, rfl⟩
  | none =>
    exfalso
    obtain ⟨s, hs, hb, hk⟩ := mem_keys_iff.1 hmem
    obtain ⟨t, ht, hbt⟩ := cover (by omega : 0 < d.length) b s hs
    have := scan_key_none d key b _ _ h t (Nat.zero_le _) (by omega)
    rw [mask_eq_mod hp, Nat.add_comm, hbt] at this
    exact this ⟨hk, hb⟩

theorem scan_key_absent (d : List (Item K V)) (key : K) (b : Nat) (habs : key ∉ keys d)
    (steps i0 : Nat) : scan_key d key b steps i0 = none := by
  cases h : scan_key d key b steps i0 with
  | none => rfl
  | some ind =>
    obtain ⟨hb, hk⟩ := scan_key_some d key b _ _ _ h
    exact absurd (mem_keys_of_slot hb hk) habs

theorem scan_key_set_second (d : List (Item K V)) (ind : Nat) (value : V) (key : K) (b : Nat) :
    ∀ steps i0, scan_key (d.set ind { slot d ind with second := value }) key b steps i0
      = scan_key d key b steps i0 := by
  intro steps
  induction steps with
  | zero => intro i0; rfl
  | succ n ih =>
    intro i0
    unfold scan_key
    simp only [List.length_set, (slot_set_second d ind value _).1,
      (slot_set_second d ind value _).2.1, ih]

theorem mem_entries_of_slot {d : List (Item K V)} {i : Nat}
    (hb : (slot d i).state = State.BUSY) : ((slot d i).first, (slot d i).second) ∈ entries d := by
  unfold entries
  simp only [List.mem_map, List.mem_filter, busy_iff]
  exact ⟨slot d i, ⟨slot_mem (slot_busy_lt hb), hb⟩, rfl⟩

theorem mem_keys_of_mem_entries {d : List (Item K V)} {p : K × V} (h : p ∈ entries d) :
    p.1 ∈ keys d := by
  rw [keys_eq_entries]
  exact List.mem_map_of_mem _ h

/-- Two different Occupied slots with the same key make that key occur twice
in the list of stored keys. -/
theorem two_slots_count {d : List (Item K V)} {i j : Nat} {k : K} (hij : i ≠ j)
    (hi : (slot d i).state = State.BUSY) (hj : (slot d j).state = State.BUSY)
    (hki : (slot d i).first = k) (hkj : (slot d j).first = k) : 2 ≤ (keys d).count k := by
  have hlt := slot_busy_lt hi
  have hd : (d.set i { slot d i with state := State.EMPTY }).set i (slot d i) = d := by
    rw [List.set_set]; exact set_slot_self d i
  have hperm := keys_set_perm_new (d := d.set i { slot d i with state := State.EMPTY })
    (slot d i) (i := i) (by simpa using hlt)
    (by rw [slot_set_self _ hlt]; simp) hi
  rw [hd, hki] at hperm
  have hmem : k ∈ keys (d.set i { slot d i with state := State.EMPTY }) := by
    apply mem_keys_of_slot (i := j)
    · rw [slot_set_other _ hij]; exact hj
    · rw [slot_set_other _ hij]; exact hkj
  rw [hperm.count_eq, List.count_cons_self]
  have := List.one_le_count_iff.2 hmem
  omega

theorem uniq_of_nodup {m : HashMap K V} (h : (keys m.data_).Nodup) : uniq_inv m := by
  intro i hi j hj hbi hbj hk
  by_contra hne
  have := two_slots_count hne hbi hbj hk rfl
  have h1 := List.nodup_iff_count_le_one.1 h (slot m.data_ j).first
  omega

/-! ### The mutable accessor -/

/-- The accessor `operator[]` on a key that no Occupied slot holds: the key is inserted
with a value-initialised value and the second scan finds it. -/
theorem operator_index_absent (H : K → Nat) (m : HashMap K V) (key : K) (hinv : Inv0 m)
    (habs : key ∉ keys m.data_) :
    ∃ ind, operator_index H m key = some (insert H m key default, ind) ∧
      size (insert H m key default) = size m + 1 ∧
      List.Perm (entries (insert H m key default).data_) ((key, default) :: entries m.data_) ∧
      (slot (insert H m key default).data_ ind).state = State.BUSY ∧
      (slot (insert H m key default).data_ ind).first = key ∧
      (slot (insert H m key default).data_ ind).second = default := by
  have hl := insert_lookup_of_absent H m.data_ key (home H m.data_ key) habs m.data_.length 0
  obtain ⟨i1, i2, i3, _⟩ := insert_new H m key default hinv hl
  obtain ⟨⟨n, hp⟩, _, _⟩ := i1
  have hmem : key ∈ keys (insert H m key default).data_ :=
    (keys_perm_of_entries_perm i3).mem_iff.2 (List.mem_cons_self _ _)
  obtain ⟨ind, hind⟩ := scan_key_complete (insert H m key default).data_ key
    (H key &&& (m.data_.length - 1)) hp hmem
  obtain ⟨hb, hk⟩ := scan_key_some _ _ _ _ _ _ hind
  refine ⟨ind, ?_, i2, i3, hb, hk, ?_⟩
  · unfold operator_index
    simp only [scan_key_absent m.data_ key _ habs, hind]
  · have hme := i3.mem_iff.1 (mem_entries_of_slot hb)
    rw [hk] at hme
    rcases List.mem_cons.1 hme with h | h
    · exact (Prod.mk.inj h).2
    · exact absurd (mem_keys_of_mem_entries h) habs

theorem operator_index_present (H : K → Nat) (m : HashMap K V) (key : K) (hinv : Inv0 m)
    (hmem : key ∈ keys m.data_) :
    ∃ ind, operator_index H m key = some (m, ind) ∧
      (slot m.data_ ind).state = State.BUSY ∧ (slot m.data_ ind).first = key ∧
      scan_key m.data_ key (H key &&& (m.data_.length - 1)) m.data_.length 0 = some ind := by
  obtain ⟨⟨n, hp⟩, _, _⟩ := hinv
  obtain ⟨ind, hind⟩ := scan_key_complete m.data_ key (H key &&& (m.data_.length - 1)) hp hmem
  obtain ⟨hb, hk⟩ := scan_key_some _ _ _ _ _ _ hind
  refine ⟨ind, ?_, hb, hk, hind⟩
  unfold operator_index
  simp only [hind]

theorem operator_index_reread (H : K → Nat) (m m1 : HashMap K V) (key : K) (ind : Nat)
    (value : V) (hinv : Inv0 m) (h : operator_index H m key = some (m1, ind)) :
    operator_index H (assign_ref m1 ind value) key = some (assign_ref m1 ind value, ind) ∧
    (slot (assign_ref m1 ind value).data_ ind).second = value := by
  by_cases hmem : key ∈ keys m.data_
  · obtain ⟨ind2, h2, hb, hk, hscan⟩ := operator_index_present H m key hinv hmem
    rw [h2] at h
    simp only [Option.some.injEq, Prod.mk.injEq] at h
    obtain ⟨rfl, rfl⟩ := h
    refine ⟨?_, ?_⟩
    · unfold operator_index
      simp only [assign_ref, List.length_set, scan_key_set_second, hscan]
    · simp only [assign_ref]
      rw [slot_set_self _ (slot_busy_lt hb)]
  · obtain ⟨ind2, h2, hsz, hperm, hb, hk, hv⟩ := operator_index_absent H m key hinv hmem
    rw [h2] at h
    simp only [Option.some.injEq, Prod.mk.injEq] at h
    obtain ⟨rfl, rfl⟩ := h
    have hinv1 := Inv0_insert H m key default hinv
    obtain ⟨⟨n, hp⟩, _, _⟩ := hinv1
    have hmem1 : key ∈ keys (insert H m key default).data_ := mem_keys_of_slot hb hk
    obtain ⟨ind3, hind3⟩ := scan_key_complete (insert H m key default).data_ key
      (H key &&& ((insert H m key default).data_.length - 1)) hp hmem1
    obtain ⟨hb3, hk3⟩ := scan_key_some _ _ _ _ _ _ hind3
    have hcount : (keys (insert H m key default).data_).count key = 1 := by
      rw [(keys_perm_of_entries_perm hperm).count_eq]
      simp only [List.count_cons_self]
      have : (keys m.data_).count key = 0 := List.count_eq_zero.2 hmem
      omega
    have heq : ind3 = ind2 := by
      by_contra hne
      have := two_slots_count hne hb3 hb hk3 hk
      omega
    subst heq
    refine ⟨?_, ?_⟩
    · unfold operator_index
      simp only [assign_ref, List.length_set, scan_key_set_second, hind3]
    · simp only [assign_ref]
      rw [slot_set_self _ (slot_busy_lt hb)]

/-! ### Tables built by insertions -/

theorem keys_replicate (L : Nat) : keys (List.replicate L (fresh : Item K V)) = [] := by
  rw [keys_eq_entries, entries_replicate]; rfl

theorem WF_fresh (H : K → Nat) (n : Nat) :
    WF H (⟨0, List.replicate (2 ^ n) fresh⟩ : HashMap K V) :=
  ⟨Inv0_fresh 0, placed_replicate H _, by simp [keys_replicate]⟩

theorem WF_mk_default (H : K → Nat) : WF H (mk_default : HashMap K V) := by
  have := WF_fresh (K := K) (V := V) H 3
  simpa [mk_default] using this

theorem WF_mk_hint (H : K → Nat) (c : Nat) : WF H (mk_hint c : HashMap K V) := by
  obtain ⟨n, hn⟩ := bit_ceil_pow2 (c * 2 % WORD)
  unfold mk_hint
  rw [hn]
  exact WF_fresh H n

/-- On a table built by insertions, `insert` of a stored key overwrites the
value in the slot holding it. -/
theorem insert_present (H : K → Nat) (m : HashMap K V) (key : K) (value : V) (hwf : WF H m)
    (hmem : key ∈ keys m.data_) :
    ∃ ind, ind < m.data_.length ∧ (slot m.data_ ind).state = State.BUSY ∧
      (slot m.data_ ind).first = key ∧
      insert H m key value =
        ⟨m.elements_count_, m.data_.set ind { slot m.data_ ind with second := value }⟩ := by
  cases h : insert_lookup m.data_ key (home H m.data_ key) m.data_.length 0 with
  | none => exact absurd hmem (insert_lookup_none_absent H m.data_ key hwf.2.1 h)
  | some ind =>
    obtain ⟨hb, hk⟩ := insert_lookup_some _ _ _ _ _ _ h
    exact ⟨ind, slot_busy_lt hb, hb, hk, insert_of_lookup_some H m key value ind h⟩

theorem WF_insert (H : K → Nat) (m : HashMap K V) (key : K) (value : V) (hwf : WF H m) :
    WF H (insert H m key value) ∧
    ∀ x, x ∈ keys (insert H m key value).data_ ↔ x = key ∨ x ∈ keys m.data_ := by
  obtain ⟨hinv, hpl, hnd⟩ := hwf
  cases h : insert_lookup m.data_ key (home H m.data_ key) m.data_.length 0 with
  | some ind =>
    obtain ⟨hb, hk⟩ := insert_lookup_some _ _ _ _ _ _ h
    rw [insert_of_lookup_some H m key value ind h]
    refine ⟨⟨Inv0_set_second m ind value hinv, placed_set_second H _ _ _ hpl, ?_⟩, ?_⟩
    · simpa [keys_set_second] using hnd
    · intro x
      simp only [keys_set_second]
      constructor
      · exact Or.inr
      · rintro (rfl | hx)
        · exact mem_keys_of_slot hb hk
        · exact hx
  | none =>
    have habs := insert_lookup_none_absent H m.data_ key hpl h
    obtain ⟨i1, i2, i3, i4⟩ := insert_new H m key value hinv h
    have hkp := keys_perm_of_entries_perm i3
    refine ⟨⟨i1, i4 hpl, ?_⟩, ?_⟩
    · rw [hkp.nodup_iff]
      exact List.nodup_cons.2 ⟨habs, hnd⟩
    · intro x
      rw [hkp.mem_iff]
      exact List.mem_cons

theorem WF_inserts (H : K → Nat) :
    ∀ (ops : List (K × V)) (m : HashMap K V), WF H m →
      WF H (ops.foldl (insert_pair H) m) ∧
      ∀ x, x ∈ keys (ops.foldl (insert_pair H) m).data_ ↔
        x ∈ keys m.data_ ∨ x ∈ ops.map Prod.fst := by
  intro ops
  induction ops with
  | nil => intro m h; exact ⟨h, by simp⟩
  | cons p ops ih =>
    intro m h
    obtain ⟨w1, w2⟩ := WF_insert H m p.1 p.2 h
    obtain ⟨r1, r2⟩ := ih (insert H m p.1 p.2) w1
    refine ⟨r1, ?_⟩
    intro x
    rw [List.foldl_cons]
    show x ∈ keys (List.foldl (insert_pair H) (insert H m p.1 p.2) ops).data_ ↔ _
    rw [r2, w2]
    simp only [List.map_cons, List.mem_cons]
    tauto

/-! ### The step budget of erase -/

theorem sum_map_set (f : Item K V → Nat) :
    ∀ (d : List (Item K V)) (i : Nat) (x : Item K V), i < d.length →
      ((d.set i x).map f).sum + f (slot d i) = (d.map f).sum + f x := by
  intro d
  induction d with
  | nil => intro i x h; simp at h
  | cons a l ih =>
    intro i x h
    cases i with
    | zero => simp [slot_cons_zero]; omega
    | succ i =>
      have := ih i x (by simpa using h)
      simp only [List.set_cons_succ, List.map_cons, List.sum_cons, slot_cons_succ]
      omega

theorem sum_map_le (f : Item K V → Nat) (L : Nat) (hf : ∀ x, f x ≤ L) :
    ∀ d : List (Item K V), (d.map f).sum ≤ d.length * L := by
  intro d
  induction d with
  | nil => simp
  | cons a l ih =>
    simp only [List.map_cons, List.sum_cons, List.length_cons]
    have := hf a
    rw [Nat.add_mul]
    omega

theorem sum_map_swap (f : Item K V → Nat) (d : List (Item K V)) (j pos : Nat)
    (hj : j < d.length) (hpos : pos < d.length) :
    ((swap_slots d j pos).map f).sum = (d.map f).sum := by
  unfold swap_slots
  have h1 := sum_map_set f d j (slot d pos) hj
  have h2 := sum_map_set f (d.set j (slot d pos)) pos (slot d j) (by simpa using hpos)
  have h3 : slot (d.set j (slot d pos)) pos = slot d pos := by
    by_cases hjp : j = pos
    · subst hjp; exact slot_set_self _ hj
    · exact slot_set_other _ hjp
  rw [h3] at h2
  omega

theorem slot_swap_pos (d : List (Item K V)) (j pos : Nat) (hpos : pos < d.length) :
    slot (swap_slots d j pos) pos = slot d j := by
  unfold swap_slots
  exact slot_set_self _ (by simpa using hpos)

/-- The two ways the source computes the distance from an item's home bucket
to the gap agree: the intermediate wrap of `pos - elem_bucket` is undone by
adding the array length. -/
theorem wrap_eq (pos len eb : Nat) (h : eb < len) (hw : len ≤ WORD) :
    ((pos + WORD - eb) % WORD + len) % WORD = (pos + len - eb) % WORD := by
  unfold WORD at *
  omega

theorem budget_bound (d : List (Item K V)) :
    (d.map (fun it => min it.distance d.length)).sum < d.length * d.length + 1 := by
  have := sum_map_le (fun it : Item K V => min it.distance d.length) d.length
    (fun x => Nat.min_le_right _ _) d
  omega

/-- The backward-shift loop stops before its budget is used up whenever the
budget exceeds the sum of the recorded distances, each capped at the array
length: every move lowers that sum. -/
theorem erase_shift_budget (H : K → Nat) (L : Nat) :
    ∀ fuel (d : List (Item K V)) pos j, d.length = L → 0 < L → L ≤ WORD →
      (d.map (fun it => min it.distance L)).sum < fuel →
      erase_shift H fuel d pos j ≠ Except.error Fault.fuel := by
  intro fuel
  induction fuel with
  | zero => intro d pos j hL hpos hw h; omega
  | succ f ih =>
    intro d pos j hL hLpos hw h
    subst hL
    unfold erase_shift
    simp only
    split
    · simp
    · rename_i hE
      split
      · rename_i hB
        rcases state_cases (slot d j) with h1 | h1
        · exact absurd h1 hE
        · exact absurd h1 hB
      · rename_i hB
        have hB2 : (slot d j).state = State.BUSY := not_not.1 hB
        have hj := slot_busy_lt hB2
        split
        · rename_i hcmp
          split
          · rename_i hpos
            apply ih
            · simp [swap_slots_length]
            · exact hLpos
            · exact hw
            · have hmask : (pos + d.length - (H (slot d j).first &&& (d.length - 1))) % WORD
                  &&& (d.length - 1) < d.length := mask_lt _ (by omega)
              have hs := sum_map_set (fun it : Item K V => min it.distance d.length)
                (swap_slots d j pos) pos
                { slot (swap_slots d j pos) pos with
                  distance := (pos + d.length - (H (slot d j).first &&& (d.length - 1))) % WORD
                    &&& (d.length - 1) }
                (by simpa [swap_slots_length] using hpos)
              rw [sum_map_swap _ d j pos hj hpos, slot_swap_pos d j pos hpos] at hs
              simp only at hs
              have heb : H (slot d j).first &&& (d.length - 1) < d.length := mask_lt _ (by omega)
              rw [wrap_eq pos d.length _ heb hw] at hcmp
              rw [slot_swap_pos d j pos hpos]
              omega
          · simp
        · simp

theorem erase_scan_budget (H : K → Nat) (m : HashMap K V) (key : K) (bucket : Nat)
    (hw : m.data_.length ≤ WORD) :
    ∀ steps i, erase_scan H m key bucket steps i ≠ Except.error Fault.fuel := by
  intro steps
  induction steps with
  | zero => intro i; simp [erase_scan]
  | succ n ih =>
    intro i
    unfold erase_scan
    simp only
    split
    · simp
    · split
      · rename_i hK
        have hlt := slot_busy_lt hK.2
        have hbud := erase_shift_budget H m.data_.length
          (m.data_.length * m.data_.length + 1)
          (m.data_.set ((i + bucket) &&& (m.data_.length - 1))
            { slot m.data_ ((i + bucket) &&& (m.data_.length - 1)) with state := State.EMPTY })
          (i + bucket) (((i + bucket) + 1) &&& (m.data_.length - 1)) (by simp) (by omega) hw
          (by simpa using budget_bound (m.data_.set ((i + bucket) &&& (m.data_.length - 1))
            { slot m.data_ ((i + bucket) &&& (m.data_.length - 1)) with state := State.EMPTY }))
        simp only [decr, List.length_set]
        split
        · simp
        · rename_i e he
          intro hcontra
          injection hcontra with hcontra
          rw [hcontra] at he
          exact hbud he
      · exact ih _

/-- The step budget of the embedding is never the reason `erase` stops. -/
theorem erase_budget (H : K → Nat) (m : HashMap K V) (key : K) (hw : m.data_.length ≤ WORD) :
    erase H m key ≠ Except.error Fault.fuel :=
  erase_scan_budget H m key _ hw _ _

/-! ### The load factor -/

/-- Length and count after an insertion whose first pass finds nothing: either
the array keeps its length and stays below half full, or it was at least half
full and its length doubles. -/
theorem insert_new_length (H : K → Nat) (m : HashMap K V) (key : K) (value : V) (hinv : Inv0 m)
    (h : insert_lookup m.data_ key (home H m.data_ key) m.data_.length 0 = none) :
    ((insert H m key value).data_.length = m.data_.length ∧
      2 * (m.elements_count_ + 1) < m.data_.length) ∨
    ((insert H m key value).data_.length = 2 * m.data_.length ∧
      m.data_.length ≤ 2 * (m.elements_count_ + 1)) := by
  obtain ⟨⟨n, hp⟩, hc, hroom⟩ := hinv
  obtain ⟨i, hpf⟩ := probe_free_exists hp hroom (home H m.data_ key)
  rw [insert_of_lookup_none H m key value i h hpf]
  split
  · rename_i hocc
    obtain ⟨r1, _, _, _⟩ := resize_spec H (⟨m.elements_count_ + 1,
      m.data_.set ((home H m.data_ key + i) &&& (m.data_.length - 1))
        ⟨key, value, State.BUSY, i⟩⟩ : HashMap K V) (n := n) (by simpa using hp)
    simp only [occupied, List.length_set, decide_eq_true_eq] at hocc
    right
    refine ⟨?_, hocc⟩
    rw [r1, hp, Nat.pow_succ]; omega
  · rename_i hocc
    simp only [occupied, List.length_set, decide_eq_true_eq, not_le] at hocc
    left
    exact ⟨by simp, hocc⟩

/-- The load-factor invariant together with what it needs to be kept. -/
theorem load_factor_insert (H : K → Nat) (m : HashMap K V) (key : K) (value : V)
    (hinv : Inv0 m) (h2 : 2 ≤ m.data_.length) (hlf : 2 * m.elements_count_ < m.data_.length) :
    2 ≤ (insert H m key value).data_.length ∧
    2 * (insert H m key value).elements_count_ < (insert H m key value).data_.length := by
  cases h : insert_lookup m.data_ key (home H m.data_ key) m.data_.length 0 with
  | some ind =>
    rw [insert_of_lookup_some H m key value ind h]
    simpa using ⟨h2, hlf⟩
  | none =>
    have hcount := (insert_new H m key value hinv h).2.1
    rcases insert_new_length H m key value hinv h with ⟨h1, h3⟩ | ⟨h1, h3⟩
    · rw [h1, hcount]; exact ⟨h2, h3⟩
    · rw [h1, hcount]; omega

theorem erase_scan_effect (H : K → Nat) (m : HashMap K V) (key : K) (bucket : Nat) :
    ∀ steps i b m1, erase_scan H m key bucket steps i = Except.ok (b, m1) →
      m1.data_.length = m.data_.length ∧ m1.elements_count_ ≤ m.elements_count_ := by
  intro steps
  induction steps with
  | zero =>
    intro i b m1 h
    simp only [erase_scan, Except.ok.injEq, Prod.mk.injEq] at h
    rw [← h.2]; exact ⟨rfl, Nat.le_refl _⟩
  | succ n ih =>
    intro i b m1 h
    unfold erase_scan at h
    simp only at h
    split at h
    · simp only [Except.ok.injEq, Prod.mk.injEq] at h
      rw [← h.2]; exact ⟨rfl, Nat.le_refl _⟩
    · split at h
      · split at h
        · rename_i d hs
          simp only [Except.ok.injEq, Prod.mk.injEq] at h
          rw [← h.2]
          obtain ⟨r1, _⟩ := erase_shift_keeps H _ _ _ _ _ hs
          simp only [decr, List.length_set] at r1
          exact ⟨r1, by simp only [decr]; omega⟩
        · simp at h
      · exact ih _ _ _ h

theorem erase_effect (H : K → Nat) (m m1 : HashMap K V) (key : K) (b : Bool)
    (h : erase H m key = Except.ok (b, m1)) :
    m1.data_.length = m.data_.length ∧ m1.elements_count_ ≤ m.elements_count_ :=
  erase_scan_effect H m key _ _ _ _ _ h

theorem load_factor_index (H : K → Nat) (m m1 : HashMap K V) (key : K) (ind : Nat)
    (h : operator_index H m key = some (m1, ind))
    (hinv : Inv0 m) (h2 : 2 ≤ m.data_.length) (hlf : 2 * m.elements_count_ < m.data_.length) :
    Inv0 m1 ∧ 2 ≤ m1.data_.length ∧ 2 * m1.elements_count_ < m1.data_.length := by
  rcases operator_index_table H m m1 key ind h with h1 | h1
  · rw [h1]; exact ⟨hinv, h2, hlf⟩
  · rw [h1]
    exact ⟨Inv0_insert H m key default hinv, load_factor_insert H m key default hinv h2 hlf⟩

theorem load_factor_reach (H : K → Nat) (m0 m : HashMap K V) (hr : ReachableFrom H m0 m)
    (hinv : Inv0 m0) (h2 : 2 ≤ m0.data_.length)
    (hlf : 2 * m0.elements_count_ < m0.data_.length) :
    Inv0 m ∧ 2 ≤ m.data_.length ∧ 2 * m.elements_count_ < m.data_.length := by
  induction hr with
  | start => exact ⟨hinv, h2, hlf⟩
  | insert k v _ ih =>
    obtain ⟨i1, i2, i3⟩ := ih
    exact ⟨Inv0_insert H _ k v i1, load_factor_insert H _ k v i1 i2 i3⟩
  | index k _ h ih =>
    obtain ⟨i1, i2, i3⟩ := ih
    exact load_factor_index H _ _ k _ h i1 i2 i3
  | assign k v _ h ih =>
    obtain ⟨i1, i2, i3⟩ := ih
    obtain ⟨j1, j2, j3⟩ := load_factor_index H _ _ k _ h i1 i2 i3
    exact ⟨Inv0_assign_ref _ _ v j1, by simpa [assign_ref] using j2,
      by simpa [assign_ref] using j3⟩
  | erase k _ h ih =>
    obtain ⟨i1, i2, i3⟩ := ih
    obtain ⟨e1, e2⟩ := erase_effect H _ _ k _ h
    exact ⟨Inv0_erase H _ _ k _ i1 h, by omega, by omega⟩
  | clear _ ih =>
    obtain ⟨i1, i2, i3⟩ := ih
    exact ⟨Inv0_clear _ i1, by simpa [clear] using i2, by simp only [clear, List.length_map]; omega⟩

theorem mk_hint_count (n : Nat) : (mk_hint n : HashMap K V).elements_count_ = 0 := rfl

/-! ### Absent keys, and clearing -/

/-- An insertion whose first pass finds nothing, on an array with a
power-of-two length and a slot that is not Occupied, stores the key, whatever
the cached count is; the length stays a power of two. -/
theorem insert_new_mem (H : K → Nat) (m : HashMap K V) (key : K) (value : V) {n : Nat}
    (hp : m.data_.length = 2 ^ n) (hroom : busy_count m.data_ < m.data_.length)
    (h : insert_lookup m.data_ key (home H m.data_ key) m.data_.length 0 = none) :
    key ∈ keys (insert H m key value).data_ ∧
    ∃ n1, (insert H m key value).data_.length = 2 ^ n1 := by
  obtain ⟨i, hpf⟩ := probe_free_exists hp hroom (home H m.data_ key)
  obtain ⟨_, hi, hfree, hpath⟩ := probe_free_some m.data_ _ _ _ _ hpf
  have hpos : 0 < m.data_.length := by omega
  have hind : (home H m.data_ key + i) &&& (m.data_.length - 1) < m.data_.length :=
    mask_lt _ hpos
  have hent := entries_set_perm_new (⟨key, value, State.BUSY, i⟩ : Item K V) hind hfree rfl
  rw [insert_of_lookup_none H m key value i h hpf]
  split
  · obtain ⟨r1, _, _, r4⟩ := resize_spec H (⟨m.elements_count_ + 1,
      m.data_.set ((home H m.data_ key + i) &&& (m.data_.length - 1))
        ⟨key, value, State.BUSY, i⟩⟩ : HashMap K V) (n := n) (by simpa using hp)
    exact ⟨(keys_perm_of_entries_perm (r4.trans hent)).mem_iff.2 (List.mem_cons_self _ _),
      n + 1, r1⟩
  · exact ⟨(keys_perm_of_entries_perm hent).mem_iff.2 (List.mem_cons_self _ _),
      n, by simpa using hp⟩

theorem find_loop_some (d : List (Item K V)) (key : K) :
    ∀ steps i0 i, find_loop d key steps i0 = some i →
      (slot d i).state = State.BUSY ∧ (slot d i).first = key := by
  intro steps
  induction steps with
  | zero => intro i0 i h; simp [find_loop] at h
  | succ n ih =>
    intro i0 i h
    unfold find_loop at h
    split at h
    · rename_i hc
      injection h with h
      subst h
      exact ⟨hc.2, hc.1⟩
    · exact ih _ _ h

theorem find_absent (H : K → Nat) (m : HashMap K V) (key : K) (habs : key ∉ keys m.data_) :
    find H m key = end_ m := by
  unfold find
  simp only
  cases h : find_loop m.data_ key (m.data_.length - (H key &&& (m.data_.length - 1)))
      (H key &&& (m.data_.length - 1)) with
  | none => rfl
  | some i =>
    obtain ⟨hb, hk⟩ := find_loop_some _ _ _ _ _ h
    exact absurd (mem_keys_of_slot hb hk) habs

theorem bucket_absent (H : K → Nat) (m : HashMap K V) (key : K) (habs : key ∉ keys m.data_) :
    bucket H m key = -1 := by
  unfold bucket
  rw [scan_key_absent m.data_ key _ habs]

theorem slot_clear (m : HashMap K V) (i : Nat) : (slot (clear m).data_ i).state = State.EMPTY := by
  by_cases h : i < m.data_.length
  · rw [slot_of_lt (by simpa [clear] using h)]
    simp [clear]
  · rw [slot_of_ge (by simpa [clear] using Nat.le_of_not_lt h)]
    rfl

theorem busy_count_clear (m : HashMap K V) : busy_count (clear m).data_ = 0 := by
  simp [clear, busy_count, List.countP_map, Function.comp_def, busy_def, List.countP_eq_zero]

theorem keys_clear (m : HashMap K V) : keys (clear m).data_ = [] := by
  have h := keys_length (clear m).data_
  rw [busy_count_clear] at h
  exact List.length_eq_zero.1 h

/-! ### First free slot and first hit -/

theorem probe_free_first (d : List (Item K V)) (b i : Nat)
    (hfree : (slot d ((b + i) &&& (d.length - 1))).state ≠ State.BUSY)
    (hbusy : ∀ t, t < i → (slot d ((b + t) &&& (d.length - 1))).state = State.BUSY) :
    ∀ steps i0, i0 ≤ i → i < i0 + steps → probe_free d b steps i0 = some i := by
  intro steps
  induction steps with
  | zero => intro i0 h1 h2; omega
  | succ n ih =>
    intro i0 h1 h2
    unfold probe_free
    by_cases hi : i0 = i
    · subst hi
      simp only [hfree, not_false_eq_true, if_true]
    · have := hbusy i0 (by omega)
      simp only [this, not_true_eq_false, if_false]
      exact ih (i0 + 1) (by omega) (by omega)

theorem scan_key_first (d : List (Item K V)) (key : K) (b i : Nat)
    (hhit : (slot d ((i + b) &&& (d.length - 1))).first = key ∧
      (slot d ((i + b) &&& (d.length - 1))).state = State.BUSY)
    (hmiss : ∀ t, t < i → ¬ ((slot d ((t + b) &&& (d.length - 1))).first = key ∧
      (slot d ((t + b) &&& (d.length - 1))).state = State.BUSY)) :
    ∀ steps i0, i0 ≤ i → i < i0 + steps →
      scan_key d key b steps i0 = some ((i + b) &&& (d.length - 1)) := by
  intro steps
  induction steps with
  | zero => intro i0 h1 h2; omega
  | succ n ih =>
    intro i0 h1 h2
    unfold scan_key
    by_cases hi : i0 = i
    · subst hi
      simp only [hhit, and_self, if_true]
    · have := hmiss i0 (by omega)
      simp only [this, if_false]
      exact ih (i0 + 1) (by omega) (by omega)

/-! ### The distance invariant -/

theorem mod_sub_once {a L : Nat} (h1 : L ≤ a) (h2 : a < 2 * L) : a % L = a - L := by
  rw [Nat.mod_eq_sub_mod h1, Nat.mod_eq_of_lt (by omega)]

theorem mod_word_mod {L n : Nat} (hp : L = 2 ^ n) (hw : L ≤ WORD) (x : Nat) :
    x % WORD % L = x % L := by
  have hn : n ≤ 64 := by
    by_contra hgt
    have : 2 ^ 65 ≤ 2 ^ n := Nat.pow_le_pow_right (by omega) (by omega)
    unfold WORD at hw
    omega
  have hd : L ∣ WORD := by
    rw [hp]; unfold WORD; exact Nat.pow_dvd_pow 2 hn
  exact Nat.mod_mod_of_dvd x hd

/-- The distance written by the backward shift (line 99) is the forward
distance from the home bucket to the gap. -/
theorem shift_distance {L n : Nat} (hp : L = 2 ^ n) (hw : L ≤ WORD) (pos eb : Nat) :
    (pos + L - eb) % WORD &&& (L - 1) = (pos + L - eb) % L := by
  rw [mask_eq_mod hp, mod_word_mod hp hw]

/-- Stepping forward by less than a whole turn never comes back to the start. -/
theorem step_ne {L a t : Nat} (ha : a < L) (h0 : 0 < t) (ht : t < L) : (a + t) % L ≠ a := by
  by_cases hc : a + t < L
  · rw [Nat.mod_eq_of_lt hc]; omega
  · rw [mod_sub_once (by omega) (by omega)]; omega

theorem step_step (L a t : Nat) : ((a + 1) % L + t) % L = (a + (t + 1)) % L := by
  rw [Nat.mod_add_mod]
  congr 1
  omega

/-- A larger budget does not change the outcome of a shift that stops within
the smaller one. -/
theorem erase_shift_mono (H : K → Nat) :
    ∀ fuel (d : List (Item K V)) pos j extra,
      erase_shift H fuel d pos j ≠ Except.error Fault.fuel →
      erase_shift H (fuel + extra) d pos j = erase_shift H fuel d pos j := by
  intro fuel
  induction fuel with
  | zero => intro d pos j extra h; exact absurd rfl h
  | succ f ih =>
    intro d pos j extra h
    have he : f + 1 + extra = (f + extra) + 1 := by omega
    rw [he]
    unfold erase_shift at h ⊢
    simp only at h ⊢
    by_cases hE : (slot d j).state = State.EMPTY
    · simp only [if_pos hE]
    · simp only [if_neg hE] at h ⊢
      by_cases hB : (slot d j).state ≠ State.BUSY
      · simp only [if_pos hB] at h ⊢
        exact ih _ _ _ _ h
      · simp only [if_neg hB] at h ⊢
        by_cases hcmp : ((pos + WORD - (H (slot d j).first &&& (d.length - 1))) % WORD
            + d.length) % WORD &&& (d.length - 1) < (slot d j).distance
        · simp only [if_pos hcmp] at h ⊢
          by_cases hpos : pos < d.length
          · simp only [if_pos hpos] at h ⊢
            exact ih _ _ _ _ h
          · simp only [if_neg hpos]
        · simp only [if_neg hcmp]

/-- The backward shift stops within `c` iterations when the slot `c` steps
after the gap is Empty. -/
theorem erase_shift_within (H : K → Nat) (L n : Nat) (hp : L = 2 ^ n) :
    ∀ k fuel (d : List (Item K V)) pos, d.length = L → k + 1 < L → k + 1 ≤ fuel →
      (slot d ((pos + (k + 1)) % L)).state = State.EMPTY →
      erase_shift H fuel d pos ((pos + 1) &&& (L - 1)) ≠ Except.error Fault.fuel := by
  intro k
  induction k with
  | zero =>
    intro fuel d pos hL hk hf he
    obtain ⟨f, rfl⟩ : ∃ f, fuel = f + 1 := ⟨fuel - 1, by omega⟩
    unfold erase_shift
    simp only
    rw [mask_eq_mod hp]
    simp only [Nat.zero_add] at he
    simp [he]
  | succ k ih =>
    intro fuel d pos hL hk hf he
    obtain ⟨f, rfl⟩ : ∃ f, fuel = f + 1 := ⟨fuel - 1, by omega⟩
    subst hL
    unfold erase_shift
    simp only
    split
    · simp
    · rename_i hE
      split
      · rename_i hB
        rcases state_cases (slot d ((pos + 1) &&& (d.length - 1))) with h1 | h1
        · exact absurd h1 hE
        · exact absurd h1 hB
      · rename_i hB
        split
        · split
          · rename_i hpos
            have hjlt : (pos + 1) % d.length < d.length := Nat.mod_lt _ (by omega)
            have hj : (pos + 1) &&& (d.length - 1) = (pos + 1) % d.length := mask_eq_mod hp _
            have hidx : ((pos + 1) % d.length + (k + 1)) % d.length
                = (pos + (k + 1 + 1)) % d.length := step_step _ _ _
            have hne1 : (pos + (k + 1 + 1)) % d.length ≠ pos := step_ne hpos (by omega) hk
            have hne2 : (pos + (k + 1 + 1)) % d.length ≠ (pos + 1) % d.length := by
              rw [← hidx]; exact step_ne hjlt (by omega) (by omega)
            rw [hj]
            have := ih f
              ((swap_slots d ((pos + 1) % d.length) pos).set pos
                { slot (swap_slots d ((pos + 1) % d.length) pos) pos with
                  distance := (pos + d.length
                      - (H (slot d ((pos + 1) % d.length)).first &&& (d.length - 1))) % WORD
                    &&& (d.length - 1) })
              ((pos + 1) % d.length) (by simp [swap_slots_length]) (by omega) (by omega)
              (by
                rw [hidx, slot_set_other _ (Ne.symm hne1)]
                unfold swap_slots
                rw [slot_set_other _ (Ne.symm hne1), slot_set_other _ (Ne.symm hne2)]
                exact he)
            simpa [swap_slots_length] using this
          · simp
        · simp

/-! ### The least power of two -/

/-- The doubling loop of `bit_ceil` returns a value that is at least `x` and no
larger than any power of two that is at least `x`, when it starts from a power
of two with that property and has enough steps. -/
theorem bit_ceil_from_least :
    ∀ fuel a x, x ≤ 2 ^ a * 2 ^ fuel → (∀ j, x ≤ 2 ^ j → 2 ^ a ≤ 2 ^ j) →
      x ≤ bit_ceil_from fuel (2 ^ a) x ∧
      ∀ j, x ≤ 2 ^ j → bit_ceil_from fuel (2 ^ a) x ≤ 2 ^ j := by
  intro fuel
  induction fuel with
  | zero =>
    intro a x h1 h2
    simp only [bit_ceil_from]
    exact ⟨by simpa using h1, h2⟩
  | succ f ih =>
    intro a x h1 h2
    unfold bit_ceil_from
    split
    · rename_i hle
      exact ⟨hle, h2⟩
    · rename_i hle
      have hdbl : 2 * 2 ^ a = 2 ^ (a + 1) := by rw [Nat.pow_succ]; omega
      rw [hdbl]
      apply ih (a + 1) x
      · rw [Nat.pow_succ] at h1 ⊢
        calc x ≤ 2 ^ a * (2 ^ f * 2) := h1
          _ = 2 ^ a * 2 * 2 ^ f := by ring
      · intro j hj
        have hlt : 2 ^ a < 2 ^ j := by omega
        have haj : a < j := (Nat.pow_lt_pow_iff_right (by omega)).1 hlt
        exact Nat.pow_le_pow_right (by omega) haj

theorem bit_ceil_least (x : Nat) :
    x ≤ bit_ceil x ∧ ∀ j, x ≤ 2 ^ j → bit_ceil x ≤ 2 ^ j := by
  have h := bit_ceil_from_least x 0 x
    (by simp only [Nat.pow_zero, Nat.one_mul]; exact Nat.le_of_lt (Nat.lt_two_pow x))
    (by intro j _; simp only [Nat.pow_zero]; exact Nat.one_le_two_pow)
  simpa [bit_ceil] using h

theorem mk_hint_length (n : Nat) (h : n * 2 ≤ 2 ^ 63) :
    (mk_hint n : HashMap K V).data_.length = bit_ceil (n * 2) := by
  unfold mk_hint
  have : n * 2 % WORD = n * 2 := by
    apply Nat.mod_eq_of_lt
    unfold WORD
    omega
  simp [this]

/-! ### One move of the backward shift -/

/-- The array after one move of the backward shift: the gap `g` holds the item
of slot `j` with its new distance, slot `j` holds the old gap, nothing else
changes. -/
theorem slot_moved (d : List (Item K V)) (j g D : Nat) (hj : j < d.length) (hg : g < d.length)
    (hne : j ≠ g) :
    slot ((swap_slots d j g).set g { slot (swap_slots d j g) g with distance := D }) g
      = { slot d j with distance := D } ∧
    slot ((swap_slots d j g).set g { slot (swap_slots d j g) g with distance := D }) j
      = slot d g ∧
    ∀ s, s ≠ g → s ≠ j →
      slot ((swap_slots d j g).set g { slot (swap_slots d j g) g with distance := D }) s
        = slot d s := by
  refine ⟨?_, ?_, ?_⟩
  · rw [slot_set_self _ (by simpa [swap_slots_length] using hg), slot_swap_pos d j g hg]
  · rw [slot_set_other _ (Ne.symm hne)]
    unfold swap_slots
    rw [slot_set_other _ (Ne.symm hne), slot_set_self _ hj]
  · intro s h1 h2
    rw [slot_set_other _ (Ne.symm h1)]
    unfold swap_slots
    rw [slot_set_other _ (Ne.symm h1), slot_set_other _ (Ne.symm h2)]

/-- The test of line 95, for a gap inside the array, compares the recorded
distance with the forward distance from the home bucket to the gap. -/
theorem qualify_eq {L n : Nat} (hp : L = 2 ^ n) (hw : L ≤ WORD) (g eb : Nat) (heb : eb < L) :
    ((g + WORD - eb) % WORD + L) % WORD &&& (L - 1) = (g + L - eb) % L := by
  rw [wrap_eq g L eb heb hw, shift_distance hp hw]

/-! ### The run of the backward shift -/

/-- The backward shift from a gap `g`: when the `r` entries that follow the gap
qualify, each against the slot before it, and the next slot is Empty or holds
an entry that does not qualify, the loop moves those `r` entries back by one
slot each, leaves the gap `r` slots further, and touches nothing else. -/
theorem erase_shift_run (H : K → Nat) (L n : Nat) (hp : L = 2 ^ n) (hw : L ≤ WORD) :
    ∀ r fuel (d : List (Item K V)) (g : Nat),
      d.length = L → g < L → r + 1 < L → r < fuel →
      (slot d g).state = State.EMPTY →
      (∀ u, u < r → (slot d ((g + (u + 1)) % L)).state = State.BUSY ∧
        ((g + u) % L + L - (H (slot d ((g + (u + 1)) % L)).first &&& (L - 1))) % L
          < (slot d ((g + (u + 1)) % L)).distance) →
      ((slot d ((g + (r + 1)) % L)).state = State.EMPTY ∨
        (slot d ((g + (r + 1)) % L)).distance ≤
          ((g + r) % L + L - (H (slot d ((g + (r + 1)) % L)).first &&& (L - 1))) % L) →
      ∃ d2, erase_shift H fuel d g ((g + 1) &&& (L - 1)) = Except.ok d2 ∧
        d2.length = L ∧
        (∀ u, u < r → slot d2 ((g + u) % L) =
          { slot d ((g + (u + 1)) % L) with
            distance := ((g + u) % L + L
              - (H (slot d ((g + (u + 1)) % L)).first &&& (L - 1))) % L }) ∧
        slot d2 ((g + r) % L) = slot d g ∧
        (∀ s, (∀ t, t ≤ r → s ≠ (g + t) % L) → slot d2 s = slot d s) := by
  intro r
  induction r with
  | zero =>
    intro fuel d g hL hg hr hf hgap hq hstop
    obtain ⟨f, rfl⟩ : ∃ f, fuel = f + 1 := ⟨fuel - 1, by omega⟩
    have hj : (g + 1) &&& (L - 1) = (g + 1) % L := mask_eq_mod hp _
    have hg0 : (g + 0) % L = g := by rw [Nat.add_zero, Nat.mod_eq_of_lt hg]
    simp only [Nat.zero_add, hg0] at hstop
    refine ⟨d, ?_, hL, fun u hu => by omega, by rw [hg0], fun s _ => rfl⟩
    unfold erase_shift
    simp only [hL, hj]
    by_cases hE : (slot d ((g + 1) % L)).state = State.EMPTY
    · simp only [if_pos hE]
    · simp only [if_neg hE]
      have hB : (slot d ((g + 1) % L)).state = State.BUSY := by
        rcases state_cases (slot d ((g + 1) % L)) with h | h
        · exact absurd h hE
        · exact h
      simp only [if_neg (not_not.2 hB)]
      rcases hstop with h | h
      · exact absurd h hE
      · have heb : H (slot d ((g + 1) % L)).first &&& (L - 1) < L := mask_lt _ (by omega)
        rw [qualify_eq hp hw g _ heb]
        simp only [if_neg (Nat.not_lt.2 h)]
  | succ r ih =>
    intro fuel d g hL hg hr hf hgap hq hstop
    obtain ⟨f, rfl⟩ : ∃ f, fuel = f + 1 := ⟨fuel - 1, by omega⟩
    have hj : (g + 1) &&& (L - 1) = (g + 1) % L := mask_eq_mod hp _
    have hg0 : (g + 0) % L = g := by rw [Nat.add_zero, Nat.mod_eq_of_lt hg]
    have hjlt : (g + 1) % L < L := Nat.mod_lt _ (by omega)
    have hjg : (g + 1) % L ≠ g := step_ne hg (by omega) (by omega)
    have hstep : ∀ t, ((g + 1) % L + t) % L = (g + (t + 1)) % L := fun t => step_step L g t
    have hfar_g : ∀ t, 0 < t → t < L → (g + t) % L ≠ g := fun t h0 h1 => step_ne hg h0 h1
    have hfar_j : ∀ t, 1 < t → t < L → (g + t) % L ≠ (g + 1) % L := by
      intro t h0 h1
      obtain ⟨t1, rfl⟩ : ∃ t1, t = t1 + 1 := ⟨t - 1, by omega⟩
      rw [← hstep t1]
      exact step_ne hjlt (by omega) (by omega)
    obtain ⟨hB, hcmp⟩ := hq 0 (by omega)
    simp only [Nat.zero_add, hg0] at hB hcmp
    have heb : H (slot d ((g + 1) % L)).first &&& (L - 1) < L := mask_lt _ (by omega)
    obtain ⟨m1, m2, m3⟩ := slot_moved d ((g + 1) % L) g
      ((g + L - (H (slot d ((g + 1) % L)).first &&& (L - 1))) % WORD &&& (L - 1))
      (by rw [hL]; exact hjlt) (by rw [hL]; exact hg) hjg
    have hD : (g + L - (H (slot d ((g + 1) % L)).first &&& (L - 1))) % WORD &&& (L - 1)
        = (g + L - (H (slot d ((g + 1) % L)).first &&& (L - 1))) % L := shift_distance hp hw _ _
    obtain ⟨d2, e1, e2, e3, e4, e5⟩ := ih f
      ((swap_slots d ((g + 1) % L) g).set g
        { slot (swap_slots d ((g + 1) % L) g) g with
          distance := (g + L - (H (slot d ((g + 1) % L)).first &&& (L - 1))) % WORD
            &&& (L - 1) })
      ((g + 1) % L) (by simp [swap_slots_length, hL]) hjlt (by omega) (by omega)
      (by rw [m2]; exact hgap)
      (by
        intro u hu
        rw [hstep (u + 1), hstep u,
          m3 _ (hfar_g _ (by omega) (by omega)) (hfar_j _ (by omega) (by omega))]
        exact hq (u + 1) (by omega))
      (by
        rw [hstep (r + 1), hstep r,
          m3 _ (hfar_g _ (by omega) (by omega)) (hfar_j _ (by omega) (by omega))]
        exact hstop)
    refine ⟨d2, ?_, e2, ?_, ?_, ?_⟩
    · unfold erase_shift
      simp only [hL, hj]
      simp only [if_neg (by rw [hB]; decide : ¬ (slot d ((g + 1) % L)).state = State.EMPTY),
        if_neg (not_not.2 hB)]
      rw [qualify_eq hp hw g _ heb]
      simp only [if_pos hcmp, if_pos hg]
      exact e1
    · intro u hu
      cases u with
      | zero =>
        simp only [Nat.zero_add, hg0]
        rw [e5 g (by
          intro t ht
          rw [hstep t]
          exact Ne.symm (hfar_g _ (by omega) (by omega))), m1, hD]
      | succ u =>
        rw [← hstep u, e3 u (by omega), hstep (u + 1), hstep u,
          m3 _ (hfar_g _ (by omega) (by omega)) (hfar_j _ (by omega) (by omega))]
    · rw [← hstep r, e4, m2]
    · intro s hs
      have hsg : s ≠ g := by
        have := hs 0 (by omega)
        rwa [hg0] at this
      have hsj : s ≠ (g + 1) % L := hs 1 (by omega)
      rw [e5 s (by
        intro t ht
        rw [hstep t]
        exact hs (t + 1) (by omega)), m3 s hsg hsj]

/-! ### The scan of erase up to the key -/

/-- The scan of `erase` reaches the first slot that holds the key when every
slot before it on the probe path is Occupied by another key. -/
theorem erase_scan_found (H : K → Nat) (m : HashMap K V) (key : K) (b i : Nat)
    (hmiss : ∀ t, t < i →
      (slot m.data_ ((t + b) &&& (m.data_.length - 1))).state = State.BUSY ∧
      (slot m.data_ ((t + b) &&& (m.data_.length - 1))).first ≠ key)
    (hhit : (slot m.data_ ((i + b) &&& (m.data_.length - 1))).first = key ∧
      (slot m.data_ ((i + b) &&& (m.data_.length - 1))).state = State.BUSY) :
    ∀ steps i0, i0 ≤ i → i < i0 + steps →
      erase_scan H m key b steps i0 =
        match erase_shift H (m.data_.length * m.data_.length + 1)
            (m.data_.set ((i + b) &&& (m.data_.length - 1))
              { slot m.data_ ((i + b) &&& (m.data_.length - 1)) with state := State.EMPTY })
            (i + b) ((i + b + 1) &&& (m.data_.length - 1)) with
        | Except.ok d => Except.ok (true, ⟨m.elements_count_ - 1, d⟩)
        | Except.error e => Except.error e := by
  intro steps
  induction steps with
  | zero => intro i0 h1 h2; omega
  | succ k ih =>
    intro i0 h1 h2
    unfold erase_scan
    simp only
    by_cases hi : i0 = i
    · subst hi
      have hne : ¬ (slot m.data_ ((i0 + b) &&& (m.data_.length - 1))).state = State.EMPTY := by
        rw [hhit.2]; decide
      simp only [if_neg hne, if_pos hhit, decr, List.length_set]
      try rfl
    · obtain ⟨hb, hk⟩ := hmiss i0 (by omega)
      have hne : ¬ (slot m.data_ ((i0 + b) &&& (m.data_.length - 1))).state = State.EMPTY := by
        rw [hb]; decide
      have hnk : ¬ ((slot m.data_ ((i0 + b) &&& (m.data_.length - 1))).first = key ∧
          (slot m.data_ ((i0 + b) &&& (m.data_.length - 1))).state = State.BUSY) :=
        fun h => hk h.1
      simp only [if_neg hne, if_neg hnk]
      exact ih (i0 + 1) (by omega) (by omega)

/-! ### Departures of the code from the specification -/

theorem ex_three_reachable : Reachable id_hash ex_three :=
  Reachable.insert 8 12 (Reachable.insert 1 11 (Reachable.insert 0 10 Reachable.default))

theorem ex_gap_reachable : Reachable id_hash ex_gap :=
  Reachable.erase 0 ex_three_reachable
    (by decide : erase id_hash ex_three 0 = Except.ok (true, ex_gap))

/-- C1 (the code departs from the claim): after `insert(7, 10)` and
`insert(15, 11)` on a default table with `h(x) = x`, key 15 is stored in slot 0
and `bucket(15)` is 0, yet `find(15)` returns `end()`: the loop of `find` stops
at the last slot and never wraps. -/
theorem find_misses_wrapped_key :
    Reachable id_hash ex_wrap ∧
    (slot ex_wrap.data_ 0).state = State.BUSY ∧ deref ex_wrap.data_ 0 = (15, 11) ∧
    bucket id_hash ex_wrap 15 = 0 ∧
    find id_hash ex_wrap 15 = end_ ex_wrap := by
  refine ⟨?_, by decide, by decide, by decide, by decide⟩
  exact Reachable.insert 15 11 (Reachable.insert 7 10 Reachable.default)

/-- C2 (the code departs from the claim): after `insert(0)`, `insert(1)`,
`insert(8)` and `erase(0)` on a default table with `h(x) = x`, key 8 is still
held in an Occupied slot, yet `erase(8)` answers `false` and removes nothing. -/
theorem erase_misses_present_key :
    Reachable id_hash ex_three ∧
    erase id_hash ex_three 0 = Except.ok (true, ex_gap) ∧
    8 ∈ keys ex_gap.data_ ∧
    erase id_hash ex_gap 8 = Except.ok (false, ex_gap) := by
  refine ⟨?_, by decide, by decide, by decide⟩
  exact Reachable.insert 8 12 (Reachable.insert 1 11 (Reachable.insert 0 10 Reachable.default))

/-- C4 (the code departs from the claim): on the run `insert 0, insert 1,
insert 8, erase 0, erase 8` with `h(x) = x`, the hash map answers
`[true, false]` and the reference map `[true, true]`. -/
theorem erase_disagrees_with_reference :
    run_map id_hash [Op.insert 0 10, Op.insert 1 11, Op.insert 8 12, Op.erase 0, Op.erase 8]
        (mk_default : HashMap Nat Nat) = Except.ok [true, false] ∧
    run_ref [Op.insert 0 10, Op.insert 1 11, Op.insert 8 12, Op.erase 0, Op.erase 8]
        (RefMap.empty : RefMap Nat Nat) = [true, true] := by
  refine ⟨by decide, by decide⟩

/-- C6 (the code departs from the claim): on the reachable table `ex_gap`,
`insert(8, 13)` adds `(8, 13)` and leaves the old pair `(8, 12)` stored. -/
theorem insert_keeps_stale_pair :
    Reachable id_hash ex_gap ∧
    entries ex_gap.data_ = [(1, 11), (8, 12)] ∧
    entries (insert id_hash ex_gap 8 13).data_ = [(8, 13), (1, 11), (8, 12)] :=
  ⟨ex_gap_reachable, by decide, by decide⟩

/-- C7 (the code departs from the claim): `erase(0)` turns a table in which
every stored key is reachable into one where slot 0, on the probe path of key
8 from its home bucket 0 to slot 2, is Empty. -/
theorem erase_breaks_reachability :
    Reachable id_hash ex_three ∧ reach_inv id_hash ex_three ∧
    erase id_hash ex_three 0 = Except.ok (true, ex_gap) ∧
    (slot ex_gap.data_ 2).state = State.BUSY ∧ home id_hash ex_gap.data_ 8 = 0 ∧
    (slot ex_gap.data_ 0).state = State.EMPTY ∧
    ¬ reach_inv id_hash ex_gap :=
  ⟨ex_three_reachable, by decide, by decide, by decide, by decide, by decide, by decide⟩

/-- C8 (the code departs from the claim): on the reachable table `ex_gap`,
whose keys are distinct, `insert(8, 13)` yields a reachable table with two
Occupied slots holding key 8. -/
theorem insert_after_erase_duplicates_key :
    Reachable id_hash (insert id_hash ex_gap 8 13) ∧
    uniq_inv ex_gap ∧ ¬ uniq_inv (insert id_hash ex_gap 8 13) :=
  ⟨Reachable.insert 8 13 ex_gap_reachable, by decide, by decide⟩

/-! ### Properties the code satisfies -/

/-- C9: for every table, a traversal from `begin()` to `end()` yields exactly
the pairs of the Occupied slots, in ascending slot order and each slot once; so
it yields as many pairs as there are Occupied slots, which is `size()` on every
reachable table; with one Occupied slot `++begin() == end()`, and with none
`begin() == end()`. -/
theorem iteration_complete (H : K → Nat) (m : HashMap K V) :
    iterate m = entries m.data_ ∧
    (iterate m).length = busy_count m.data_ ∧
    (Reachable H m → (iterate m).length = size m) ∧
    (busy_count m.data_ = 1 → iterator_incr m.data_ (begin_ m) = end_ m) ∧
    (busy_count m.data_ = 0 → begin_ m = end_ m) := by
  have h1 := iterate_eq_entries m
  refine ⟨h1, by rw [h1, entries_length], ?_, fun h => (incr_begin_eq_end_of_one_busy m h).2,
    begin_eq_end_of_no_busy m⟩
  intro hr
  rw [h1, entries_length]
  exact (Reachable_Inv0 H m hr).2.1.symm

/-- Witness for C9 on the reachable table `ex_three`. -/
theorem iteration_complete_witness :
    Reachable id_hash ex_three ∧ (iterate ex_three).length = size ex_three ∧
    iterate ex_three = [(0, 10), (1, 11), (8, 12)] :=
  have hr : Reachable id_hash ex_three :=
    Reachable.insert 8 12 (Reachable.insert 1 11 (Reachable.insert 0 10 Reachable.default))
  ⟨hr, (iteration_complete id_hash ex_three).2.2.1 hr,
    (iteration_complete id_hash ex_three).1.trans (by decide)⟩


/-- C10: on every reachable table, `operator[]` on a stored key returns the
table unchanged and the slot holding the key; on a key that is not stored it
returns the table after `insert(key, V())`, whose size is one more, and a slot
holding the key with the value-initialised value; and after a write of `value`
through the returned reference, `operator[]` on the same key returns that slot
again, now holding `value`, and leaves the table as it is. -/
theorem operator_index_spec (H : K → Nat) (m : HashMap K V) (hr : Reachable H m) (key : K) :
    (key ∈ keys m.data_ →
      ∃ ind, operator_index H m key = some (m, ind) ∧
        (slot m.data_ ind).state = State.BUSY ∧ (slot m.data_ ind).first = key) ∧
    (key ∉ keys m.data_ →
      ∃ ind, operator_index H m key = some (insert H m key default, ind) ∧
        size (insert H m key default) = size m + 1 ∧
        List.Perm (entries (insert H m key default).data_) ((key, default) :: entries m.data_) ∧
        (slot (insert H m key default).data_ ind).state = State.BUSY ∧
        (slot (insert H m key default).data_ ind).first = key ∧
        (slot (insert H m key default).data_ ind).second = default) ∧
    (∀ m1 ind value, operator_index H m key = some (m1, ind) →
      operator_index H (assign_ref m1 ind value) key = some (assign_ref m1 ind value, ind) ∧
      (slot (assign_ref m1 ind value).data_ ind).second = value) := by
  have hinv := Reachable_Inv0 H m hr
  refine ⟨?_, operator_index_absent H m key hinv, ?_⟩
  · intro hmem
    obtain ⟨ind, h1, h2, h3, _⟩ := operator_index_present H m key hinv hmem
    exact ⟨ind, h1, h2, h3⟩
  · intro m1 ind value h
    exact operator_index_reread H m m1 key ind value hinv h

/-- Witness for C10 on the reachable table `ex_three`: key 5 is not stored. -/
theorem operator_index_spec_witness :
    Reachable id_hash ex_three ∧ 5 ∉ keys ex_three.data_ ∧
    ∃ ind, operator_index id_hash ex_three 5 = some (insert id_hash ex_three 5 default, ind) ∧
      size (insert id_hash ex_three 5 default) = size ex_three + 1 :=
  have hr : Reachable id_hash ex_three :=
    Reachable.insert 8 12 (Reachable.insert 1 11 (Reachable.insert 0 10 Reachable.default))
  have h := (operator_index_spec id_hash ex_three hr 5).2.1 (by decide)
  ⟨hr, by decide, h.elim fun ind hx => ⟨ind, hx.1, hx.2.1⟩⟩


/-- C5: for every hasher and every sequence `ops` of inserts on a freshly
constructed table, at most one Occupied slot holds a given key, the size is the
number of distinct keys inserted, a further `insert` of a stored key overwrites
the value in its slot and keeps the size, and a further `insert` of a key that
is not stored raises the size by exactly one. -/
theorem insert_upsert (H : K → Nat) (m0 m : HashMap K V) (ops : List (K × V))
    (h0 : m0 = mk_default ∨ ∃ n, m0 = mk_hint n)
    (hm : m = ops.foldl (insert_pair H) m0) :
    uniq_inv m ∧
    size m = (ops.map Prod.fst).dedup.length ∧
    ∀ key value,
      (key ∈ keys m.data_ →
        ∃ ind, ind < m.data_.length ∧ (slot m.data_ ind).state = State.BUSY ∧
          (slot m.data_ ind).first = key ∧
          insert H m key value =
            ⟨m.elements_count_, m.data_.set ind { slot m.data_ ind with second := value }⟩ ∧
          size (insert H m key value) = size m) ∧
      (key ∉ keys m.data_ → size (insert H m key value) = size m + 1) := by
  have hwf0 : WF H m0 := by
    rcases h0 with h | ⟨n, h⟩
    · rw [h]; exact WF_mk_default H
    · rw [h]; exact WF_mk_hint H n
  have hk0 : keys m0.data_ = [] := by
    rcases h0 with h | ⟨n, h⟩
    · rw [h]; exact keys_replicate 8
    · rw [h]; exact keys_replicate _
  obtain ⟨hwf, hkeys⟩ := WF_inserts H ops m0 hwf0
  rw [← hm] at hwf hkeys
  refine ⟨uniq_of_nodup hwf.2.2, ?_, ?_⟩
  · have hperm : List.Perm (keys m.data_) (ops.map Prod.fst).dedup := by
      apply (List.perm_ext_iff_of_nodup hwf.2.2 (List.nodup_dedup _)).2
      intro x
      rw [hkeys, hk0, List.mem_dedup]
      simp
    unfold size
    rw [hwf.1.2.1, ← keys_length, hperm.length_eq]
  · intro key value
    refine ⟨?_, ?_⟩
    · intro hmem
      obtain ⟨ind, h1, h2, h3, h4⟩ := insert_present H m key value hwf hmem
      exact ⟨ind, h1, h2, h3, h4, by rw [h4]; rfl⟩
    · intro habs
      have hl := insert_lookup_of_absent H m.data_ key (home H m.data_ key) habs m.data_.length 0
      exact (insert_new H m key value hwf.1 hl).2.1

/-- Witness for C5: three inserts with `h(x) = x` on a default table. -/
theorem insert_upsert_witness :
    ex_three = [(0, 10), (1, 11), (8, 12)].foldl (insert_pair id_hash) mk_default ∧
    uniq_inv ex_three ∧ size ex_three = 3 :=
  have h := insert_upsert id_hash mk_default ex_three [(0, 10), (1, 11), (8, 12)]
    (Or.inl rfl) rfl
  ⟨rfl, h.1, h.2.1.trans (by decide)⟩

/-- C11 (as amended): for every table produced by the default constructor or by
a size hint (or range) that gives at least two slots, followed by any sequence
of public operations, `2 * size() < capacity` holds right after every
`insert`. -/
theorem load_factor_bound (H : K → Nat) (m0 m : HashMap K V)
    (h0 : m0 = mk_default ∨ ∃ n, m0 = mk_hint n) (h2 : 2 ≤ m0.data_.length)
    (hr : ReachableFrom H m0 m) (key : K) (value : V) :
    2 * size (insert H m key value) < (insert H m key value).data_.length := by
  have hinv : Inv0 m0 := by
    rcases h0 with h | ⟨n, h⟩
    · rw [h]; exact Inv0_mk_default
    · rw [h]; exact Inv0_mk_hint n
  have hc : m0.elements_count_ = 0 := by
    rcases h0 with h | ⟨n, h⟩
    · rw [h]; rfl
    · rw [h]; rfl
  obtain ⟨i1, i2, i3⟩ := load_factor_reach H m0 m hr hinv h2 (by omega)
  exact (load_factor_insert H m key value i1 i2 i3).2

/-- Witness for C11 as amended: an insert on the table `ex_gap`, reached from
the default table. -/
theorem load_factor_bound_witness :
    2 ≤ (mk_default : HashMap Nat Nat).data_.length ∧
    2 * size (insert id_hash ex_gap 5 5) < (insert id_hash ex_gap 5 5).data_.length :=
  ⟨by decide,
   load_factor_bound id_hash mk_default ex_gap (Or.inl rfl) (by decide)
    (ReachableFrom.erase 0
      (ReachableFrom.insert 8 12 (ReachableFrom.insert 1 11
        (ReachableFrom.insert 0 10 ReachableFrom.start)))
      (by decide : erase id_hash ex_three 0 = Except.ok (true, ex_gap))) 5 5⟩

/-- C11 (counterexample): the size hint 0 gives one slot; after one `insert`
the table has two slots and one element, so `2 * size() < capacity` fails. -/
theorem load_factor_fails_from_capacity_one :
    (mk_hint 0 : HashMap Nat Nat).data_.length = 1 ∧
    size (insert id_hash (mk_hint 0) 5 5) = 1 ∧
    (insert id_hash (mk_hint 0) 5 5).data_.length = 2 ∧
    ¬ 2 * size (insert id_hash (mk_hint 0) 5 5) < (insert id_hash (mk_hint 0) 5 5).data_.length := by
  decide

/-- C13: for every table with a power-of-two capacity and at least one slot
that is not Occupied, and every key, `operator[]` returns a table and a slot
and does not reach its `throw`, whether or not the insertion it performs
doubles the array.  Every reachable table is such a table. -/
theorem operator_index_returns (H : K → Nat) (m : HashMap K V) (key : K)
    (hp : ∃ n, m.data_.length = 2 ^ n) (hroom : busy_count m.data_ < m.data_.length) :
    ∃ m1 ind, operator_index H m key = some (m1, ind) ∧
      (slot m1.data_ ind).state = State.BUSY ∧ (slot m1.data_ ind).first = key := by
  obtain ⟨n, hp⟩ := hp
  unfold operator_index
  simp only
  cases h1 : scan_key m.data_ key (H key &&& (m.data_.length - 1)) m.data_.length 0 with
  | some ind =>
    obtain ⟨hb, hk⟩ := scan_key_some _ _ _ _ _ _ h1
    exact ⟨m, ind, rfl, hb, hk⟩
  | none =>
    have habs : key ∉ keys m.data_ := by
      intro hmem
      obtain ⟨ind, hind⟩ := scan_key_complete m.data_ key (H key &&& (m.data_.length - 1)) hp hmem
      rw [hind] at h1
      exact absurd h1 (by simp)
    have hl := insert_lookup_of_absent H m.data_ key (home H m.data_ key) habs m.data_.length 0
    obtain ⟨hmem, n1, hp1⟩ := insert_new_mem H m key default hp hroom hl
    obtain ⟨ind, hind⟩ := scan_key_complete (insert H m key default).data_ key
      (H key &&& (m.data_.length - 1)) hp1 hmem
    obtain ⟨hb, hk⟩ := scan_key_some _ _ _ _ _ _ hind
    simp only [hind]
    exact ⟨_, ind, rfl, hb, hk⟩

/-- Witness for C13: `operator[]` on `ex_three` with the new key 5 doubles the
array from 8 to 16 slots between its two scans and returns. -/
theorem operator_index_returns_witness :
    (∃ n, ex_three.data_.length = 2 ^ n) ∧ busy_count ex_three.data_ < ex_three.data_.length ∧
    (insert id_hash ex_three 5 default).data_.length = 16 ∧
    ∃ m1 ind, operator_index id_hash ex_three 5 = some (m1, ind) ∧
      (slot m1.data_ ind).state = State.BUSY ∧ (slot m1.data_ ind).first = 5 :=
  ⟨⟨3, by decide⟩, by decide, by decide,
    operator_index_returns id_hash ex_three 5 ⟨3, by decide⟩ (by decide)⟩

/-- C14: for every table, after `clear()` every slot is Empty, `size()` is 0,
`empty()` holds, the capacity is unchanged, `find(k)` is `end()` and
`bucket(k)` is -1 for every key, and `begin() == end()`. -/
theorem clear_spec (H : K → Nat) (m : HashMap K V) :
    (∀ i, (slot (clear m).data_ i).state = State.EMPTY) ∧
    size (clear m) = 0 ∧ empty (clear m) = true ∧
    (clear m).data_.length = m.data_.length ∧
    (∀ key, find H (clear m) key = end_ (clear m)) ∧
    (∀ key, bucket H (clear m) key = -1) ∧
    begin_ (clear m) = end_ (clear m) := by
  refine ⟨slot_clear m, rfl, rfl, by simp [clear], ?_, ?_, ?_⟩
  · intro key
    exact find_absent H _ key (by rw [keys_clear]; exact List.not_mem_nil _)
  · intro key
    exact bucket_absent H _ key (by rw [keys_clear]; exact List.not_mem_nil _)
  · exact begin_eq_end_of_no_busy _ (busy_count_clear m)

/-- C15: for every table and every key that is not stored, if step `i` of the
wrapping probe sequence from the home bucket is the first whose slot is not
Occupied and the insertion does not trigger a resize, then `insert` writes the
pair into that slot with distance `i` and adds one to the size, and
`bucket(key)` is that slot afterwards, the home bucket itself when `i = 0`.
In the test (`h(x) = x mod 1000`, size hint 1000, keys 1 to 100 in order)
`bucket(i) == i` after each insertion and the size is 100 at the end. -/
theorem insert_places (H : K → Nat) (m : HashMap K V) (key : K) (value : V) (i : Nat)
    (habs : key ∉ keys m.data_) (hi : i < m.data_.length)
    (hfree : (slot m.data_ ((home H m.data_ key + i) &&& (m.data_.length - 1))).state
      ≠ State.BUSY)
    (hbusy : ∀ t, t < i →
      (slot m.data_ ((home H m.data_ key + t) &&& (m.data_.length - 1))).state = State.BUSY)
    (hnr : 2 * (m.elements_count_ + 1) < m.data_.length) :
    insert H m key value =
      ⟨m.elements_count_ + 1,
        m.data_.set ((home H m.data_ key + i) &&& (m.data_.length - 1))
          ⟨key, value, State.BUSY, i⟩⟩ ∧
    size (insert H m key value) = size m + 1 ∧
    bucket H (insert H m key value) key
      = (((home H m.data_ key + i) &&& (m.data_.length - 1) : Nat) : Int) ∧
    (i = 0 → bucket H (insert H m key value) key = ((home H m.data_ key : Nat) : Int)) ∧
    (insert_trace h1000 backshift_pairs (mk_hint 1000)).1
      = (List.range' 1 100).map (fun j => (j : Int)) ∧
    size backshift_100 = 100 := by
  have hl := insert_lookup_of_absent H m.data_ key (home H m.data_ key) habs m.data_.length 0
  have hpf := probe_free_first m.data_ (home H m.data_ key) i hfree hbusy m.data_.length 0
    (Nat.zero_le _) (by omega)
  have hins : insert H m key value =
      ⟨m.elements_count_ + 1,
        m.data_.set ((home H m.data_ key + i) &&& (m.data_.length - 1))
          ⟨key, value, State.BUSY, i⟩⟩ := by
    rw [insert_of_lookup_none H m key value i hl hpf]
    have : ¬ occupied (⟨m.elements_count_ + 1,
        m.data_.set ((home H m.data_ key + i) &&& (m.data_.length - 1))
          ⟨key, value, State.BUSY, i⟩⟩ : HashMap K V) = true := by
      simp only [occupied, List.length_set, decide_eq_true_eq, not_le]
      exact hnr
    simp [this]
  have hind : (home H m.data_ key + i) &&& (m.data_.length - 1) < m.data_.length :=
    mask_lt _ (by omega)
  have hbk : bucket H (insert H m key value) key
      = (((home H m.data_ key + i) &&& (m.data_.length - 1) : Nat) : Int) := by
    rw [hins]
    unfold bucket
    simp only [List.length_set]
    have hscan := scan_key_first
      (m.data_.set ((home H m.data_ key + i) &&& (m.data_.length - 1))
        (⟨key, value, State.BUSY, i⟩ : Item K V)) key (home H m.data_ key) i
      (by
        simp only [List.length_set]
        rw [Nat.add_comm i, slot_set_self _ hind]
        exact ⟨rfl, rfl⟩)
      (by
        intro t ht
        simp only [List.length_set]
        rw [Nat.add_comm t]
        have hb := hbusy t ht
        have hne : (home H m.data_ key + i) &&& (m.data_.length - 1)
            ≠ (home H m.data_ key + t) &&& (m.data_.length - 1) := by
          intro heq
          rw [heq] at hfree
          exact hfree hb
        rw [slot_set_other _ hne]
        intro hc
        exact habs (mem_keys_of_slot hc.2 hc.1))
      m.data_.length 0 (Nat.zero_le _) (by omega)
    simp only [List.length_set] at hscan
    simp only [home] at hscan ⊢
    rw [hscan, Nat.add_comm i]
  refine ⟨hins, by rw [hins]; rfl, hbk, ?_, by decide!, by decide!⟩
  intro h0
  rw [hbk, h0, Nat.add_zero]
  have : home H m.data_ key &&& (m.data_.length - 1) = home H m.data_ key := by
    unfold home
    rw [Nat.and_assoc, Nat.and_self]
  rw [this]

/-- Witness for C15: key 8 on the table `insert(0), insert(1)`: its home slot 0
and slot 1 are Occupied, it goes to slot 2 with distance 2. -/
theorem insert_places_witness :
    8 ∉ keys (insert id_hash (insert id_hash (mk_default : HashMap Nat Nat) 0 10) 1 11).data_ ∧
    bucket id_hash ex_three 8 = 2 ∧ size ex_three = 3 :=
  have h := insert_places id_hash
    (insert id_hash (insert id_hash (mk_default : HashMap Nat Nat) 0 10) 1 11) 8 12 2
    (by decide) (by decide) (by decide) (by decide) (by decide)
  ⟨by decide, h.2.2.1, h.2.1⟩

/-- C17 (the code departs from the claim): the table `ex_wrap3` is reachable and
satisfies the invariants of the specification (power-of-two capacity, count,
load factor, reachability, uniqueness, distances), key 2 is stored in slot 0
after its probe sequence wrapped, and `erase(2)` swaps with a gap position
outside the array. -/
theorem erase_swaps_out_of_range :
    Reachable seven_hash ex_wrap3 ∧
    ex_wrap3.data_.length = 2 ^ 3 ∧ size ex_wrap3 = busy_count ex_wrap3.data_ ∧
    2 * size ex_wrap3 < ex_wrap3.data_.length ∧
    reach_inv seven_hash ex_wrap3 ∧ uniq_inv ex_wrap3 ∧ dist_inv seven_hash ex_wrap3 ∧
    home seven_hash ex_wrap3.data_ 2 = 7 ∧ bucket seven_hash ex_wrap3 2 = 0 ∧
    erase seven_hash ex_wrap3 2 = Except.error Fault.outOfRange :=
  ⟨Reachable.insert 3 12 (Reachable.insert 2 11 (Reachable.insert 1 10 Reachable.default)),
    by decide, by decide, by decide, by decide, by decide, by decide, by decide, by decide,
    by decide⟩

/-- C19: for every table with a power-of-two capacity (of at most `2 ^ 64`
slots, the range of `size_t`) and every key, `erase` stops: the iteration
budget of its backward-shift loop is never used up; and when some slot of the
table is not Occupied, which holds on every table built by the constructors
and the public operations, the loop started at any Occupied slot stops within
`capacity` iterations, so that more iterations change nothing. -/
theorem erase_terminates (H : K → Nat) (m : HashMap K V) (key : K)
    (hp : ∃ n, m.data_.length = 2 ^ n) (hw : m.data_.length ≤ WORD) :
    erase H m key ≠ Except.error Fault.fuel ∧
    (busy_count m.data_ < m.data_.length →
      ∀ i, (slot m.data_ ((i + home H m.data_ key) &&& (m.data_.length - 1))).state
          = State.BUSY →
        erase_shift H m.data_.length
            (m.data_.set ((i + home H m.data_ key) &&& (m.data_.length - 1))
              { slot m.data_ ((i + home H m.data_ key) &&& (m.data_.length - 1)) with
                state := State.EMPTY })
            (i + home H m.data_ key)
            ((i + home H m.data_ key + 1) &&& (m.data_.length - 1))
          ≠ Except.error Fault.fuel ∧
        ∀ extra, erase_shift H (m.data_.length + extra)
            (m.data_.set ((i + home H m.data_ key) &&& (m.data_.length - 1))
              { slot m.data_ ((i + home H m.data_ key) &&& (m.data_.length - 1)) with
                state := State.EMPTY })
            (i + home H m.data_ key)
            ((i + home H m.data_ key + 1) &&& (m.data_.length - 1))
          = erase_shift H m.data_.length
            (m.data_.set ((i + home H m.data_ key) &&& (m.data_.length - 1))
              { slot m.data_ ((i + home H m.data_ key) &&& (m.data_.length - 1)) with
                state := State.EMPTY })
            (i + home H m.data_ key)
            ((i + home H m.data_ key + 1) &&& (m.data_.length - 1))) ∧
    (Reachable H m → busy_count m.data_ < m.data_.length) := by
  obtain ⟨n, hp⟩ := hp
  refine ⟨erase_budget H m key hw, ?_, fun hr => (Reachable_Inv0 H m hr).2.2⟩
  intro hroom i hb
  have hpos : 0 < m.data_.length := by omega
  obtain ⟨e, he, hne⟩ := exists_not_busy hroom
  have hE : (slot m.data_ e).state = State.EMPTY := (not_busy_iff _).1 hne
  obtain ⟨c, hc, hce⟩ := cover hpos (i + home H m.data_ key) e he
  have hind : (i + home H m.data_ key) &&& (m.data_.length - 1)
      = (i + home H m.data_ key) % m.data_.length := mask_eq_mod hp _
  have hei : (i + home H m.data_ key) % m.data_.length ≠ e := by
    intro h
    rw [hind, h] at hb
    exact hne hb
  have hc0 : c ≠ 0 := by
    intro h0
    rw [h0, Nat.add_zero] at hce
    exact hei hce
  obtain ⟨k, rfl⟩ : ∃ k, c = k + 1 := ⟨c - 1, by omega⟩
  have hfin := erase_shift_within H m.data_.length n hp k m.data_.length
    (m.data_.set ((i + home H m.data_ key) &&& (m.data_.length - 1))
      { slot m.data_ ((i + home H m.data_ key) &&& (m.data_.length - 1)) with
        state := State.EMPTY })
    (i + home H m.data_ key) (by simp) hc (by omega)
    (by
      rw [hce, hind, slot_set_other _ hei]
      exact hE)
  exact ⟨hfin, fun extra => erase_shift_mono H _ _ _ _ extra hfin⟩

/-- Witness for C19: `erase(8)` on `ex_chain` (eight slots, three Occupied);
the shift that follows the removal of key 8 from slot 0 stops within eight
iterations. -/
theorem erase_terminates_witness :
    (∃ n, ex_chain.data_.length = 2 ^ n) ∧ ex_chain.data_.length ≤ WORD ∧
    busy_count ex_chain.data_ < ex_chain.data_.length ∧
    erase id_hash ex_chain 8 ≠ Except.error Fault.fuel ∧
    erase_shift id_hash ex_chain.data_.length
        (ex_chain.data_.set ((0 + home id_hash ex_chain.data_ 8) &&& (ex_chain.data_.length - 1))
          { slot ex_chain.data_
              ((0 + home id_hash ex_chain.data_ 8) &&& (ex_chain.data_.length - 1)) with
            state := State.EMPTY })
        (0 + home id_hash ex_chain.data_ 8)
        ((0 + home id_hash ex_chain.data_ 8 + 1) &&& (ex_chain.data_.length - 1))
      ≠ Except.error Fault.fuel :=
  have h := erase_terminates id_hash ex_chain 8 ⟨3, by decide⟩ (by decide)
  ⟨⟨3, by decide⟩, by decide, by decide, h.1, (h.2.1 (by decide) 0 (by decide)).1⟩

/-- C20 (counterexample): the size hint `2 ^ 63` gives a single slot, because
`elements_count * 2` wraps to 0, and not a capacity of at least twice the
hint. -/
theorem hint_wraps_to_one_slot :
    (mk_hint (2 ^ 63) : HashMap Nat Nat).data_.length = 1 ∧
    ¬ 2 * 2 ^ 63 ≤ (mk_hint (2 ^ 63) : HashMap Nat Nat).data_.length := by
  decide

/-- C20 (as amended): the capacity of every reachable table is a power of two;
the default constructor gives 8 slots; a size hint `n` (or a range of `n`
pairs) with `2 * n` at most `2 ^ 63` gives the smallest power of two that is at
least `2 * n`; `resize` doubles the length; `erase` and `clear` keep it. -/
theorem capacity_invariant (H : K → Nat) (m : HashMap K V) (hr : Reachable H m) :
    (∃ k, m.data_.length = 2 ^ k) ∧
    (mk_default : HashMap K V).data_.length = 8 ∧
    (∀ n, n * 2 ≤ 2 ^ 63 →
      (∃ k, (mk_hint n : HashMap K V).data_.length = 2 ^ k) ∧
      n * 2 ≤ (mk_hint n : HashMap K V).data_.length ∧
      ∀ j, n * 2 ≤ 2 ^ j → (mk_hint n : HashMap K V).data_.length ≤ 2 ^ j) ∧
    (resize H m).data_.length = 2 * m.data_.length ∧
    (∀ key b m1, erase H m key = Except.ok (b, m1) → m1.data_.length = m.data_.length) ∧
    (clear m).data_.length = m.data_.length := by
  have hinv := Reachable_Inv0 H m hr
  refine ⟨hinv.1, by simp [mk_default], ?_, ?_, ?_, by simp [clear]⟩
  · intro n hn
    rw [mk_hint_length n hn]
    exact ⟨bit_ceil_pow2 _, (bit_ceil_least _).1, (bit_ceil_least _).2⟩
  · obtain ⟨k, hk⟩ := hinv.1
    rw [(resize_spec H m hk).1, hk, Nat.pow_succ]
    omega
  · intro key b m1 h
    exact (erase_effect H m m1 key b h).1

/-- Witness for C20 as amended: the table `ex_three`, and the size hint 1000
of the tests, which gives 2048 slots. -/
theorem capacity_invariant_witness :
    Reachable id_hash ex_three ∧ ex_three.data_.length = 8 ∧
    (resize id_hash ex_three).data_.length = 2 * ex_three.data_.length ∧
    (mk_hint 1000 : HashMap Nat Nat).data_.length = 2048 :=
  have h := capacity_invariant id_hash ex_three ex_three_reachable
  ⟨ex_three_reachable, by decide, h.2.2.2.1, by decide!⟩

/-- C16: when `erase(key)` finds the key in slot `p = home + i` without
wrapping, and the `r` entries that follow `p` each record a distance strictly
greater than the forward distance from their home bucket to the slot before
them, while the next slot is Empty or holds an entry that does not qualify
(the run ends before it comes back round to `p`), then `erase` answers `true`,
each of those `r` entries is moved back by exactly one slot with its distance
set to the new offset, the vacated item ends up `r` slots after `p`, and every
other slot keeps its content.  In the test (`h(x) = x mod 1000`, size hint
1000, keys 1 to 100 then 1090 to 1100): `bucket(1100) == 111` and
`size() == 111`; `erase(50)` leaves `bucket(55) == 55`; `erase(1091)` makes
`bucket(1100) == 110`. -/
theorem erase_backward_shift (H : K → Nat) (m : HashMap K V) (key : K) (n i r : Nat)
    (hp : m.data_.length = 2 ^ n) (hw : m.data_.length ≤ WORD)
    (hin : i + home H m.data_ key < m.data_.length)
    (hmiss : ∀ t, t < i →
      (slot m.data_ (t + home H m.data_ key)).state = State.BUSY ∧
      (slot m.data_ (t + home H m.data_ key)).first ≠ key)
    (hhit : (slot m.data_ (i + home H m.data_ key)).state = State.BUSY ∧
      (slot m.data_ (i + home H m.data_ key)).first = key)
    (hr : r + 1 < m.data_.length)
    (hq : ∀ u, u < r →
      (slot m.data_ ((i + home H m.data_ key + (u + 1)) % m.data_.length)).state = State.BUSY ∧
      ((i + home H m.data_ key + u) % m.data_.length + m.data_.length
          - home H m.data_
              (slot m.data_ ((i + home H m.data_ key + (u + 1)) % m.data_.length)).first)
          % m.data_.length
        < (slot m.data_ ((i + home H m.data_ key + (u + 1)) % m.data_.length)).distance)
    (hstop :
      (slot m.data_ ((i + home H m.data_ key + (r + 1)) % m.data_.length)).state = State.EMPTY ∨
      (slot m.data_ ((i + home H m.data_ key + (r + 1)) % m.data_.length)).distance ≤
        ((i + home H m.data_ key + r) % m.data_.length + m.data_.length
          - home H m.data_
              (slot m.data_ ((i + home H m.data_ key + (r + 1)) % m.data_.length)).first)
          % m.data_.length) :
    (∃ d2, erase H m key = Except.ok (true, ⟨m.elements_count_ - 1, d2⟩) ∧
      d2.length = m.data_.length ∧
      (∀ u, u < r → slot d2 ((i + home H m.data_ key + u) % m.data_.length) =
        { slot m.data_ ((i + home H m.data_ key + (u + 1)) % m.data_.length) with
          distance := ((i + home H m.data_ key + u) % m.data_.length + m.data_.length
            - home H m.data_
                (slot m.data_ ((i + home H m.data_ key + (u + 1)) % m.data_.length)).first)
            % m.data_.length }) ∧
      slot d2 ((i + home H m.data_ key + r) % m.data_.length) =
        { slot m.data_ (i + home H m.data_ key) with state := State.EMPTY } ∧
      (∀ s, (∀ t, t ≤ r → s ≠ (i + home H m.data_ key + t) % m.data_.length) →
        slot d2 s = slot m.data_ s)) ∧
    (bucket h1000 backshift_111 1100 = 111 ∧ size backshift_111 = 111 ∧
      backshift_erase_50.toOption.map (fun x => (x.1, bucket h1000 x.2 55)) = some (true, 55) ∧
      backshift_erase_1091.toOption.map (fun x => (x.1, bucket h1000 x.2 1100))
        = some (true, 110)) := by
  refine ⟨?_, by decide!, by decide!, by decide!, by decide!⟩
  have hpos : 0 < m.data_.length := by omega
  have hmask : ∀ x, x < m.data_.length → x &&& (m.data_.length - 1) = x := by
    intro x hx
    rw [mask_eq_mod hp, Nat.mod_eq_of_lt hx]
  have hfar : ∀ t, 0 < t → t < m.data_.length →
      (i + home H m.data_ key + t) % m.data_.length ≠ i + home H m.data_ key :=
    fun t h0 h1 => step_ne hin h0 h1
  have hfound := erase_scan_found H m key (home H m.data_ key) i
    (by
      intro t ht
      rw [hmask _ (by omega)]
      exact hmiss t ht)
    (by
      rw [hmask _ hin]
      exact ⟨hhit.2, hhit.1⟩)
    m.data_.length 0 (Nat.zero_le _) (by omega)
  rw [hmask _ hin] at hfound
  obtain ⟨d2, e1, e2, e3, e4, e5⟩ := erase_shift_run H m.data_.length n hp hw r
    (m.data_.length * m.data_.length + 1)
    (m.data_.set (i + home H m.data_ key)
      { slot m.data_ (i + home H m.data_ key) with state := State.EMPTY })
    (i + home H m.data_ key) (by simp) hin hr
    (by
      have := Nat.le_mul_self m.data_.length
      omega)
    (by rw [slot_set_self _ hin])
    (by
      intro u hu
      rw [slot_set_other _ (Ne.symm (hfar _ (by omega) (by omega)))]
      exact hq u hu)
    (by
      rw [slot_set_other _ (Ne.symm (hfar _ (by omega) (by omega)))]
      exact hstop)
  refine ⟨d2, ?_, e2, ?_, ?_, ?_⟩
  · unfold erase
    change erase_scan H m key (home H m.data_ key) m.data_.length 0 = _
    rw [hfound, e1]
  · intro u hu
    rw [e3 u hu, slot_set_other _ (Ne.symm (hfar _ (by omega) (by omega)))]
    rfl
  · rw [e4, slot_set_self _ hin]
  · intro s hs
    have hsp : s ≠ i + home H m.data_ key := by
      have := hs 0 (by omega)
      rwa [Nat.add_zero, Nat.mod_eq_of_lt hin] at this
    rw [e5 s hs, slot_set_other _ (Ne.symm hsp)]

/-- Witness for C16: `erase(8)` on `ex_chain`, where keys 16 and 24 follow key
8 and both move back, and slot 3 is Empty. -/
theorem erase_backward_shift_witness :
    ex_chain.data_.length = 2 ^ 3 ∧ ex_chain.data_.length ≤ WORD ∧
    ∃ d2, erase id_hash ex_chain 8 = Except.ok (true, ⟨ex_chain.elements_count_ - 1, d2⟩) ∧
      d2.length = ex_chain.data_.length :=
  have h := (erase_backward_shift id_hash ex_chain 8 3 0 2 (by decide) (by decide) (by decide)
    (by decide) (by decide) (by decide) (by decide) (by decide)).1
  ⟨by decide, by decide, h.elim fun d2 hd => ⟨d2, hd.1, hd.2.1⟩⟩

end HashMap
